import Mathlib

/-!
CPU scheduling simulator (`script.js`): shallow embedding and verified properties.

The JavaScript program keeps a global array `processes` and offers five
scheduling routines over it (`calculateFCFS`, `calculateSJF`, `calculateSRTF`,
`calculateRR`, `calculatePriority`), a metrics pass (`calculateMetrics`) and two
Gantt-chart builders.  Numbers coming out of `parseInt` are modelled as `Int`,
arrays as `List`, the `Set` of completed ids as a duplicate-free `List`, and
the two `while` loops as fuel-indexed functions into `Option` (`none` = the
fuel ran out before the loop condition became false).
-/

namespace Scheduler

/-! ## Data model -/

/-- An entry of the global `processes` array, as pushed by `addProcess`:
`{ processId, arrivalTime, burstTime, priority }`, where `priority` is
`parseInt(...) || null`. -/
structure Process where
  processId : String
  arrivalTime : Int
  burstTime : Int
  priority : Option Int
  deriving DecidableEq, Repr

/-- An entry of a `results` array:
`{ processId, startTime, endTime, turnaroundTime, waitingTime, burstTime }`. -/
structure Result where
  processId : String
  startTime : Int
  endTime : Int
  turnaroundTime : Int
  waitingTime : Int
  burstTime : Int
  deriving DecidableEq, Repr

/-! ## `Array.prototype.sort` with a comparator -/

/-- Insert `x` in front of the first element `y` with `cmp x y ≤ 0`. -/
def sortInsert {α : Type} (cmp : α → α → Int) (x : α) : List α → List α
  | [] => [x]
  | y :: ys => if cmp x y ≤ 0 then x :: y :: ys else y :: sortInsert cmp x ys

/-- Model of `[...arr].sort(cmp)`.  ECMAScript specifies the sort as stable, and
for a consistent comparator the result is the unique stable arrangement with
`cmp a b ≤ 0` for `a` before `b`; it is computed here by a stable insertion
sort. -/
def jsSort {α : Type} (cmp : α → α → Int) : List α → List α
  | [] => []
  | x :: xs => sortInsert cmp x (jsSort cmp xs)

/-! ## The non-preemptive routines -/

/-- The body of the `sortedProcesses.forEach` callback, textually the same in
`calculateFCFS`, `calculateSJF` and `calculatePriority`: the state is the pair
`(currentTime, results)`. -/
def scheduleOne (st : Int × List Result) (process : Process) : Int × List Result :=
  let startTime := max st.1 process.arrivalTime
  let endTime := startTime + process.burstTime
  let turnaroundTime := endTime - process.arrivalTime
  let waitingTime := turnaroundTime - process.burstTime
  (endTime, st.2 ++ [{ processId := process.processId, startTime := startTime,
                       endTime := endTime, turnaroundTime := turnaroundTime,
                       waitingTime := waitingTime, burstTime := process.burstTime }])

/-- The statements `let currentTime = 0; const results = []; sortedProcesses.forEach(...)`. -/
def runInOrder (sortedProcesses : List Process) : List Result :=
  (sortedProcesses.foldl scheduleOne (0, [])).2

/-- The comparator `(a, b) => a.arrivalTime - b.arrivalTime`. -/
def cmpArrival (a b : Process) : Int := a.arrivalTime - b.arrivalTime

/-- The value of `x || y` on numbers: `y` when `x` is `0`, else `x`. -/
def jsOr (x y : Int) : Int := if x = 0 then y else x

/-- The comparator `(a, b) => a.burstTime - b.burstTime || a.arrivalTime - b.arrivalTime`. -/
def cmpBurst (a b : Process) : Int :=
  jsOr (a.burstTime - b.burstTime) (a.arrivalTime - b.arrivalTime)

/-- The number a `priority` field denotes inside a subtraction: `null` converts to `0`. -/
def priorityNum (p : Process) : Int := p.priority.getD 0

/-- The comparator `(a, b) => a.priority - b.priority || a.arrivalTime - b.arrivalTime`. -/
def cmpPriority (a b : Process) : Int :=
  jsOr (priorityNum a - priorityNum b) (a.arrivalTime - b.arrivalTime)

/-- The array `results` built by `calculateFCFS`. -/
def calculateFCFS (processes : List Process) : List Result :=
  runInOrder (jsSort cmpArrival processes)

/-- The array `results` built by `calculateSJF`. -/
def calculateSJF (processes : List Process) : List Result :=
  runInOrder (jsSort cmpBurst processes)

/-- The array `results` built by `calculatePriority`. -/
def calculatePriority (processes : List Process) : List Result :=
  runInOrder (jsSort cmpPriority processes)

/-- The value of `currentTime` when the `i`-th callback starts, read off the
records pushed so far: `0` before the first, the previous `endTime` after. -/
def clockBefore (results : List Result) : Nat → Int
  | 0 => 0
  | i + 1 => (results[i]?.map Result.endTime).getD 0

/-- The record the callback pushes for `process` when `currentTime` is `clock`. -/
def recordAt (clock : Int) (process : Process) : Result :=
  { processId := process.processId
    startTime := max clock process.arrivalTime
    endTime := max clock process.arrivalTime + process.burstTime
    turnaroundTime := max clock process.arrivalTime + process.burstTime - process.arrivalTime
    waitingTime :=
      max clock process.arrivalTime + process.burstTime - process.arrivalTime - process.burstTime
    burstTime := process.burstTime }

/-- The records pushed for a run order, starting with `currentTime = clock`. -/
def recordsFrom (clock : Int) : List Process → List Result
  | [] => []
  | p :: ps => recordAt clock p :: recordsFrom (recordAt clock p).endTime ps

/-- A Gantt segment `(processId, start, end)`. -/
structure Segment where
  processId : String
  startTime : Int
  endTime : Int
  deriving DecidableEq, Repr

/-- The block `drawGanttChart` draws for a record: its id, `startTime` and `endTime`. -/
def Result.segment (r : Result) : Segment :=
  { processId := r.processId, startTime := r.startTime, endTime := r.endTime }

/-! ## Round Robin -/

/-- The variables of `calculateRR` that change in its loop. -/
structure RRState where
  queue : List Process
  results : List Result
  currentTime : Int
  deriving DecidableEq, Repr

/-- One pass through the body of `while (queue.length > 0)`, for the entry
`process` that `queue.shift()` returned and the remaining queue `rest`. -/
def rrBody (timeQuantum : Int) (process : Process) (rest : List Process)
    (results : List Result) (currentTime : Int) : RRState :=
  let executionTime := min process.burstTime timeQuantum
  let startTime := max currentTime process.arrivalTime
  let endTime := startTime + executionTime
  let turnaroundTime := endTime - process.arrivalTime
  let waitingTime := turnaroundTime - process.burstTime
  let results1 := results ++ [{ processId := process.processId, startTime := startTime,
                                endTime := endTime, turnaroundTime := turnaroundTime,
                                waitingTime := waitingTime, burstTime := process.burstTime }]
  if process.burstTime > timeQuantum then
    { queue := rest ++ [{ process with burstTime := process.burstTime - timeQuantum,
                                       arrivalTime := endTime }]
      results := results1
      currentTime := endTime }
  else
    { queue := rest, results := results1, currentTime := endTime }

/-- The loop `while (queue.length > 0) { ... }` of `calculateRR`, with fuel. -/
def rrLoop (timeQuantum : Int) : Nat → RRState → Option RRState
  | 0, s =>
    match s.queue with
    | [] => some s
    | _ :: _ => none
  | fuel + 1, s =>
    match s.queue with
    | [] => some s
    | process :: rest => rrLoop timeQuantum fuel (rrBody timeQuantum process rest s.results s.currentTime)

/-- The array `results` built by `calculateRR(timeQuantum)`. -/
def calculateRR (timeQuantum : Int) (fuel : Nat) (processes : List Process) :
    Option (List Result) :=
  (rrLoop timeQuantum fuel
    { queue := jsSort cmpArrival processes, results := [], currentTime := 0 }).map
    RRState.results

/-! ## Shortest Remaining Time First -/

/-- An entry of `processesCopy`: `{ ...p, remainingTime }`. -/
structure ProcessCopy where
  processId : String
  arrivalTime : Int
  burstTime : Int
  priority : Option Int
  remainingTime : Int
  deriving DecidableEq, Repr

/-- An entry of `ganttChart`: `{ processId, startTime }`, one per executed time unit. -/
structure Tick where
  processId : String
  startTime : Int
  deriving DecidableEq, Repr

/-- The variables of `calculateSRTF` that change in its loop.  The objects of
`processesCopy` are mutated in place, so the list is part of the state. -/
structure SRTFState where
  processesCopy : List ProcessCopy
  currentTime : Int
  results : List Result
  completed : List String
  ganttChart : List Tick
  deriving DecidableEq, Repr

/-- The call `completed.add(id)` on a `Set`. -/
def setAdd (completed : List String) (id : String) : List String :=
  if completed.contains id then completed else completed ++ [id]

/-- The array `availableProcesses`: the entries of `processesCopy` (paired with
their position, which stands for the identity of the object) that have arrived
and whose id is not in `completed`. -/
def availableProcesses (s : SRTFState) : List (Nat × ProcessCopy) :=
  s.processesCopy.enum.filter
    (fun ip => decide (ip.2.arrivalTime ≤ s.currentTime) && !(s.completed.contains ip.2.processId))

/-- The callback of `availableProcesses.reduce`. -/
def shorter (shortest process : Nat × ProcessCopy) : Nat × ProcessCopy :=
  if process.2.remainingTime < shortest.2.remainingTime then process else shortest

/-- The statements after `currentProcess` has been chosen: push a tick,
decrement `remainingTime` of that object, advance the clock, and finalise the
process when its `remainingTime` is `0`. -/
def srtfExecute (s : SRTFState) (currentProcess : Nat × ProcessCopy) : SRTFState :=
  let ganttChart := s.ganttChart ++ [{ processId := currentProcess.2.processId,
                                       startTime := s.currentTime }]
  let remainingTime := currentProcess.2.remainingTime - 1
  let processesCopy :=
    s.processesCopy.set currentProcess.1 { currentProcess.2 with remainingTime := remainingTime }
  let currentTime := s.currentTime + 1
  if remainingTime = 0 then
    let endTime := currentTime
    let turnaroundTime := endTime - currentProcess.2.arrivalTime
    let waitingTime := turnaroundTime - currentProcess.2.burstTime
    { processesCopy := processesCopy
      currentTime := currentTime
      results := s.results ++ [{ processId := currentProcess.2.processId
                                 startTime := endTime - currentProcess.2.burstTime
                                 endTime := endTime
                                 turnaroundTime := turnaroundTime
                                 waitingTime := waitingTime
                                 burstTime := currentProcess.2.burstTime }]
      completed := setAdd s.completed currentProcess.2.processId
      ganttChart := ganttChart }
  else
    { processesCopy := processesCopy
      currentTime := currentTime
      results := s.results
      completed := s.completed
      ganttChart := ganttChart }

/-- One pass through the body of the `while` loop of `calculateSRTF`. -/
def srtfBody (s : SRTFState) : SRTFState :=
  match availableProcesses s with
  | [] => { s with currentTime := s.currentTime + 1 }
  | first :: rest => srtfExecute s (rest.foldl shorter first)

/-- The loop `while (completed.size < processes.length) { ... }`, with fuel;
`n` is `processes.length`. -/
def srtfLoop (n : Nat) : Nat → SRTFState → Option SRTFState
  | 0, s => if s.completed.length < n then none else some s
  | fuel + 1, s => if s.completed.length < n then srtfLoop n fuel (srtfBody s) else some s

/-- The state in which `calculateSRTF` enters its loop. -/
def srtfInit (processes : List Process) : SRTFState :=
  { processesCopy := processes.map (fun p =>
      { processId := p.processId, arrivalTime := p.arrivalTime, burstTime := p.burstTime
        priority := p.priority, remainingTime := p.burstTime })
    currentTime := 0
    results := []
    completed := []
    ganttChart := [] }

/-- The state in which `calculateSRTF` leaves its loop; `results` and
`ganttChart` are what it hands to `displayResults` and `drawSRTFGanttChart`. -/
def calculateSRTF (fuel : Nat) (processes : List Process) : Option SRTFState :=
  srtfLoop processes.length fuel (srtfInit processes)

/-! ## The Gantt chart of SRTF -/

/-- What `createGanttBlock(processId, startTime, endTime, duration, scale)`
puts in a block: the label `processId`, `startTime-endTime`, and a width of
`duration * scale` pixels.  `processId` is `none` for `null`. -/
structure Block where
  processId : Option String
  startTime : Int
  endTime : Int
  duration : Int
  deriving DecidableEq, Repr

/-- The variables of `drawSRTFGanttChart` that change in `ganttData.forEach`,
with the blocks appended to `chartContainer` so far. -/
structure ChartState where
  currentProcess : Option String
  startTime : Int
  blocks : List Block
  deriving DecidableEq, Repr

/-- The callback of `ganttData.forEach` in `drawSRTFGanttChart`. -/
def chartEvent (st : ChartState) (event : Tick) : ChartState :=
  if st.currentProcess ≠ some event.processId then
    { currentProcess := some event.processId
      startTime := event.startTime
      blocks :=
        match st.currentProcess with
        | some cur =>
          st.blocks ++ [{ processId := some cur, startTime := st.startTime
                          endTime := event.startTime
                          duration := event.startTime - st.startTime }]
        | none => st.blocks }
  else st

/-- The blocks `drawSRTFGanttChart(ganttData)` appends to the chart; `none`
when `ganttData` is empty, where reading `lastEvent.startTime` throws. -/
def drawSRTFGanttChart (ganttData : List Tick) : Option (List Block) :=
  let st := ganttData.foldl chartEvent { currentProcess := none, startTime := 0, blocks := [] }
  match ganttData.getLast? with
  | none => none
  | some lastEvent =>
    some (st.blocks ++ [{ processId := st.currentProcess, startTime := st.startTime
                          endTime := lastEvent.startTime + 1
                          duration := lastEvent.startTime - st.startTime + 1 }])

/-! ## Metrics -/

/-- What `calculateMetrics` leaves behind: the records with `waitingTime` and
`turnaroundTime` overwritten, and the two averages before `toFixed(2)`; an
average is `none` when `results` is empty (`0 / 0`). -/
structure Metrics where
  results : List Result
  avgWaitingTime : Option ℚ
  avgTurnaroundTime : Option ℚ

/-- The callback of `results.forEach` in `calculateMetrics`, on the state
`(totalWaitingTime, totalTurnaroundTime, records rewritten so far)`; `none`
when `processes.find` finds no process with the record's id. -/
def metricsStep (processes : List Process) (st : Option (Int × Int × List Result))
    (result : Result) : Option (Int × Int × List Result) :=
  match st, processes.find? (fun p => p.processId == result.processId) with
  | some (totalWaitingTime, totalTurnaroundTime, done), some p =>
    let waitingTime := result.startTime - p.arrivalTime
    let turnaroundTime := result.endTime - p.arrivalTime
    some (totalWaitingTime + waitingTime, totalTurnaroundTime + turnaroundTime,
      done ++ [{ result with waitingTime := waitingTime, turnaroundTime := turnaroundTime }])
  | _, _ => none

/-- The function `calculateMetrics(results)`, reading the global `processes`. -/
def calculateMetrics (processes : List Process) (results : List Result) : Option Metrics :=
  match results.foldl (metricsStep processes) (some (0, 0, [])) with
  | none => none
  | some (totalWaitingTime, totalTurnaroundTime, done) =>
    some { results := done
           avgWaitingTime :=
             if results.length = 0 then none
             else some ((totalWaitingTime : ℚ) / (results.length : ℚ))
           avgTurnaroundTime :=
             if results.length = 0 then none
             else some ((totalTurnaroundTime : ℚ) / (results.length : ℚ)) }

/-- The number of hundredths `x.toFixed(2)` prints: the integer nearest to
`100 * |x|`, the larger one on a tie, with the sign of `x`. -/
def toFixed2 (x : ℚ) : Int :=
  if x < 0 then - ⌊(-x) * 100 + 1 / 2⌋ else ⌊x * 100 + 1 / 2⌋

/-! ## Input conditions, invariants and fuel bounds used in the proofs -/

/-- The descriptor an entry of `processesCopy` was spread from. -/
def ProcessCopy.toProcess (c : ProcessCopy) : Process :=
  { processId := c.processId, arrivalTime := c.arrivalTime, burstTime := c.burstTime
    priority := c.priority }

/-- The numeric input condition of the claims: `arrivalTime ≥ 0` and `burstTime > 0`. -/
def PositiveTimes (processes : List Process) : Prop :=
  ∀ p ∈ processes, 0 ≤ p.arrivalTime ∧ 0 < p.burstTime

instance (processes : List Process) : Decidable (PositiveTimes processes) := by
  unfold PositiveTimes
  infer_instance

/-- The input condition of the claims: pairwise distinct ids, `arrivalTime ≥ 0`
and `burstTime > 0`. -/
def ValidInput (processes : List Process) : Prop :=
  (processes.map Process.processId).Nodup ∧ PositiveTimes processes

instance (processes : List Process) : Decidable (ValidInput processes) := by
  unfold ValidInput
  infer_instance

/-- What holds of the state of `calculateSRTF` at every loop head, for a valid input. -/
structure SRTFInv (processes : List Process) (s : SRTFState) : Prop where
  copies : s.processesCopy.map ProcessCopy.toProcess = processes
  rem_nonneg : ∀ c ∈ s.processesCopy, 0 ≤ c.remainingTime
  completed_iff : ∀ c ∈ s.processesCopy, (c.processId ∈ s.completed ↔ c.remainingTime = 0)
  completed_nodup : s.completed.Nodup
  completed_sub : ∀ id ∈ s.completed, id ∈ processes.map Process.processId
  ticks : ∀ c ∈ s.processesCopy,
    ((s.ganttChart.filter (fun e => e.processId == c.processId)).length : Int)
      = c.burstTime - c.remainingTime

/-- What holds of the tick stream of `calculateSRTF` at every loop head, for any input. -/
structure TimelineInv (s : SRTFState) : Prop where
  ticks_lt : ∀ e ∈ s.ganttChart, e.startTime < s.currentTime
  ticks_sorted : s.ganttChart.Pairwise (fun a b => a.startTime < b.startTime)
  last_running : ∀ e, s.ganttChart.getLast? = some e → e.processId ∉ s.completed →
    s.currentTime = e.startTime + 1 ∧
      ∃ c ∈ s.processesCopy, c.processId = e.processId ∧ c.arrivalTime ≤ e.startTime
  contiguous : s.ganttChart.Chain'
    (fun a b => a.processId = b.processId → b.startTime = a.startTime + 1)

/-- An upper bound of the arrival times. -/
def maxArrival (processes : List Process) : Int :=
  processes.foldr (fun p m => max p.arrivalTime m) 0

/-- The quantity that decreases in every pass of the loop of `calculateSRTF`:
the time units still to execute plus the distance of the clock from the last arrival. -/
def srtfMeasure (processes : List Process) (s : SRTFState) : Nat :=
  (s.processesCopy.map (fun c => c.remainingTime.toNat)).sum
    + (maxArrival processes - s.currentTime).toNat

/-- Fuel that suffices for `calculateSRTF` on a valid input. -/
def srtfFuel (processes : List Process) : Nat :=
  (processes.map (fun p => p.burstTime.toNat)).sum + (maxArrival processes).toNat

/-- The total `burstTime` of the entries of `l` with id `id`. -/
def burstOf (id : String) (l : List Process) : Int :=
  ((l.filter (fun p => p.processId == id)).map Process.burstTime).sum

/-- The total duration `endTime - startTime` of the records of `rs` with id `id`. -/
def durationOf (id : String) (rs : List Result) : Int :=
  ((rs.filter (fun r => r.processId == id)).map (fun r => r.endTime - r.startTime)).sum

/-- What holds of the state of `calculateRR` at every loop head, for a valid
input and a positive quantum. -/
structure RRInv (processes : List Process) (s : RRState) : Prop where
  total : ∀ id, durationOf id s.results + burstOf id s.queue = burstOf id processes
  queue_pos : ∀ p ∈ s.queue, 0 < p.burstTime
  ends_le : ∀ r ∈ s.results, r.endTime ≤ s.currentTime
  ordered : s.results.Pairwise (fun a b => a.endTime ≤ b.startTime)
  nonempty : ∀ r ∈ s.results, r.startTime < r.endTime

/-- The quantity that decreases in every pass of the loop of `calculateRR`. -/
def rrMeasure (s : RRState) : Nat :=
  (s.queue.map (fun p => p.burstTime.toNat + 1)).sum

/-- Fuel that suffices for `calculateRR` with a positive quantum. -/
def rrFuel (processes : List Process) : Nat :=
  (processes.map (fun p => p.burstTime.toNat + 1)).sum

/-- The five values of the `#algorithm` selector that `runScheduler` dispatches
on; `rr` carries the parsed `timeQuantum`. -/
inductive Algorithm where
  | fcfs
  | sjf
  | srtf
  | rr (timeQuantum : Int)
  | priority
  deriving DecidableEq, Repr

/-- A tick of `ganttChart` read as the unit segment `[startTime, startTime + 1)`. -/
def Tick.segment (e : Tick) : Segment :=
  { processId := e.processId, startTime := e.startTime, endTime := e.startTime + 1 }

/-- The execution segments an algorithm hands to its chart builder: the records
passed to `drawGanttChart`, or the ticks passed to `drawSRTFGanttChart`. -/
def emittedSegments (alg : Algorithm) (fuel : Nat) (processes : List Process) :
    Option (List Segment) :=
  match alg with
  | Algorithm.fcfs => some ((calculateFCFS processes).map Result.segment)
  | Algorithm.sjf => some ((calculateSJF processes).map Result.segment)
  | Algorithm.srtf =>
    (calculateSRTF fuel processes).map (fun s => s.ganttChart.map Tick.segment)
  | Algorithm.rr timeQuantum =>
    (calculateRR timeQuantum fuel processes).map (fun rs => rs.map Result.segment)
  | Algorithm.priority => some ((calculatePriority processes).map Result.segment)

/-- The array `results` an algorithm hands to `displayResults`. -/
def resultRecords (alg : Algorithm) (fuel : Nat) (processes : List Process) :
    Option (List Result) :=
  match alg with
  | Algorithm.fcfs => some (calculateFCFS processes)
  | Algorithm.sjf => some (calculateSJF processes)
  | Algorithm.srtf => (calculateSRTF fuel processes).map SRTFState.results
  | Algorithm.rr timeQuantum => calculateRR timeQuantum fuel processes
  | Algorithm.priority => some (calculatePriority processes)

/-- The total duration of the segments of `segs` with id `id`. -/
def segmentTime (id : String) (segs : List Segment) : Int :=
  ((segs.filter (fun sg => sg.processId == id)).map (fun sg => sg.endTime - sg.startTime)).sum

/-- Specification of the timeline builder, following the spec's words: the
tick stream split into its maximal runs of consecutive same-process ticks, a
tick joining the run that follows it when that run starts with the same process
one time unit later. -/
def tickRuns : List Tick → List (List Tick)
  | [] => []
  | e :: es =>
    match tickRuns es with
    | [] => [[e]]
    | [] :: runs => [e] :: runs
    | (f :: run) :: runs =>
      if f.processId = e.processId ∧ f.startTime = e.startTime + 1 then
        (e :: f :: run) :: runs
      else [e] :: (f :: run) :: runs

/-- The process and the first tick time of a run of ticks. -/
def runHead (run : List Tick) : Option String × Int :=
  (run.head?.map Tick.processId, (run.head?.map Tick.startTime).getD 0)

/-- The label and the start of a chart block. -/
def Block.head (b : Block) : Option String × Int := (b.processId, b.startTime)

/-- The heads of the blocks that `drawSRTFGanttChart` opens after a block of
process `cur`: one at each tick whose process differs from the current one. -/
def blockHeads (cur : String) : List Tick → List (Option String × Int)
  | [] => []
  | e :: es =>
    if cur = e.processId then blockHeads cur es
    else (some e.processId, e.startTime) :: blockHeads e.processId es

/-! ## The process registry and the dispatcher -/

/-- The effect of a handler on the global `processes` array, with the text of
the `alert` it raised, if any. -/
structure RegistryOutcome where
  processes : List Process
  alert : Option String
  deriving DecidableEq, Repr

/-- The value of `parseInt(field) || null` for the priority field, given the
value of `parseInt(field)` (`none` for `NaN`): `NaN` and `0` become `null`. -/
def priorityOrNull (parsed : Option Int) : Option Int :=
  match parsed with
  | none => none
  | some v => if v = 0 then none else some v

/-- The handler `addProcess()`.  `processId` is the text of the id field;
`arrivalTime`, `burstTime` and `priority` are the values `parseInt` returned for
the other three fields, `none` standing for `NaN`.  The alert branch is the
guard `!processId || isNaN(arrivalTime) || isNaN(burstTime)`. -/
def addProcess (processes : List Process) (processId : String)
    (arrivalTime burstTime priority : Option Int) : RegistryOutcome :=
  match arrivalTime, burstTime with
  | some a, some b =>
    if processId = "" then
      { processes := processes, alert := some "Please fill out all required fields correctly." }
    else
      { processes := processes ++ [{ processId := processId, arrivalTime := a, burstTime := b
                                     priority := priorityOrNull priority }]
        alert := none }
  | _, _ =>
    { processes := processes, alert := some "Please fill out all required fields correctly." }

/-- The call `arr.splice(start, 1)` for an integer `start`: a negative `start`
counts from the end, and nothing is removed when the position is past the end. -/
def splice1 {α : Type} (arr : List α) (start : Int) : List α :=
  let len : Int := arr.length
  let relativeStart := if start < 0 then max (len + start) 0 else min start len
  arr.eraseIdx relativeStart.toNat

/-- The handler `deleteProcess(index)`: `processes.splice(index, 1)`. -/
def deleteProcess (processes : List Process) (index : Int) : List Process :=
  splice1 processes index

/-- What `runScheduler()` does: it raises an `alert`, or it calls one of the
five routines. -/
inductive Dispatch where
  | alert (message : String)
  | invoke (alg : Algorithm)
  deriving DecidableEq, Repr

/-- The handler `runScheduler()`.  `algorithm` is the value of the selector and
`timeQuantum` the value `parseInt` returns for the quantum field (`none` for
`NaN`), which is read only in the case `'rr'`. -/
def runScheduler (processes : List Process) (algorithm : String) (timeQuantum : Option Int) :
    Dispatch :=
  if processes.length = 0 then Dispatch.alert "Please add at least one process."
  else if algorithm = "fcfs" then Dispatch.invoke Algorithm.fcfs
  else if algorithm = "sjf" then Dispatch.invoke Algorithm.sjf
  else if algorithm = "srtf" then Dispatch.invoke Algorithm.srtf
  else if algorithm = "rr" then
    match timeQuantum with
    | none => Dispatch.alert "Please provide a valid time quantum for Round Robin."
    | some q =>
      if q ≤ 0 then Dispatch.alert "Please provide a valid time quantum for Round Robin."
      else Dispatch.invoke (Algorithm.rr q)
  else if algorithm = "priority" then Dispatch.invoke Algorithm.priority
  else Dispatch.alert "Invalid algorithm selected."

/-- A whole scheduling run: `runScheduler()` followed by the routine it calls.
`none` when the fuel runs out inside a loop; `some (Except.error m)` for an
alert; `some (Except.ok results)` for the array handed to `displayResults`. -/
def schedulingRun (fuel : Nat) (processes : List Process) (algorithm : String)
    (timeQuantum : Option Int) : Option (Except String (List Result)) :=
  match runScheduler processes algorithm timeQuantum with
  | Dispatch.alert message => some (Except.error message)
  | Dispatch.invoke alg => (resultRecords alg fuel processes).map Except.ok

/-- What holds of `results` in the state of `calculateSRTF` at every loop head,
for any input `processes`. -/
structure ResultsInv (processes : List Process) (s : SRTFState) : Prop where
  copies : s.processesCopy.map ProcessCopy.toProcess = processes
  ids : s.results.map Result.processId = s.completed
  last_tick : ∀ r ∈ s.results,
    (s.ganttChart.filter (fun e => e.processId == r.processId)).getLast?
      = some (Tick.mk r.processId (r.endTime - 1))
  fields : ∀ r ∈ s.results, ∃ p ∈ processes, p.processId = r.processId ∧
    r.startTime = r.endTime - p.burstTime ∧ r.turnaroundTime = r.endTime - p.arrivalTime ∧
    r.waitingTime = r.turnaroundTime - p.burstTime ∧ r.burstTime = p.burstTime

/-! ## Sorting facts -/

theorem sortInsert_perm {α : Type} (cmp : α → α → Int) (x : α) (l : List α) :
    (sortInsert cmp x l).Perm (x :: l) := by
  induction l with
  | nil => exact List.Perm.refl _
  | cons y ys ih =>
    unfold sortInsert
    split
    · exact List.Perm.refl _
    · exact (List.Perm.cons y ih).trans (List.Perm.swap x y ys)

theorem jsSort_perm {α : Type} (cmp : α → α → Int) (l : List α) :
    (jsSort cmp l).Perm l := by
  induction l with
  | nil => exact List.Perm.refl _
  | cons x xs ih =>
    exact (sortInsert_perm cmp x (jsSort cmp xs)).trans (List.Perm.cons x ih)

theorem jsSort_length {α : Type} (cmp : α → α → Int) (l : List α) :
    (jsSort cmp l).length = l.length := (jsSort_perm cmp l).length_eq

theorem sortInsert_pairwise {α : Type} (cmp : α → α → Int)
    (htot : ∀ a b, cmp a b ≤ 0 ∨ cmp b a ≤ 0)
    (htr : ∀ a b c, cmp a b ≤ 0 → cmp b c ≤ 0 → cmp a c ≤ 0)
    (x : α) (l : List α) (hl : l.Pairwise (fun a b => cmp a b ≤ 0)) :
    (sortInsert cmp x l).Pairwise (fun a b => cmp a b ≤ 0) := by
  induction l with
  | nil => simp [sortInsert]
  | cons y ys ih =>
    unfold sortInsert
    rw [List.pairwise_cons] at hl
    split
    · rename_i hxy
      refine List.pairwise_cons.2 ⟨?_, List.pairwise_cons.2 hl⟩
      intro b hb
      rcases List.mem_cons.1 hb with rfl | hb
      · exact hxy
      · exact htr _ _ _ hxy (hl.1 b hb)
    · rename_i hxy
      refine List.pairwise_cons.2 ⟨?_, ih hl.2⟩
      intro b hb
      rcases List.mem_cons.1 ((sortInsert_perm cmp x ys).subset hb) with rfl | hb
      · rcases htot b y with h | h
        · exact absurd h hxy
        · exact h
      · exact hl.1 b hb

theorem jsSort_pairwise {α : Type} (cmp : α → α → Int)
    (htot : ∀ a b, cmp a b ≤ 0 ∨ cmp b a ≤ 0)
    (htr : ∀ a b c, cmp a b ≤ 0 → cmp b c ≤ 0 → cmp a c ≤ 0) (l : List α) :
    (jsSort cmp l).Pairwise (fun a b => cmp a b ≤ 0) := by
  induction l with
  | nil => simp [jsSort]
  | cons x xs ih => exact sortInsert_pairwise cmp htot htr x _ ih

/-- Stability, per class: filtering the sorted array by a predicate whose
members never compare strictly greater than one another gives the same list as
filtering the input. -/
theorem sortInsert_filter {α : Type} (cmp : α → α → Int) (P : α → Bool)
    (hP : ∀ a b, P a = true → P b = true → cmp a b ≤ 0) (x : α) (l : List α) :
    (sortInsert cmp x l).filter P = (x :: l).filter P := by
  induction l with
  | nil => rfl
  | cons y ys ih =>
    unfold sortInsert
    split
    · rfl
    · rename_i hxy
      by_cases hy : P y = true
      · have hx : ¬ P x = true := fun hx => hxy (hP x y hx hy)
        rw [List.filter_cons_of_pos hy, ih, List.filter_cons_of_neg hx,
          List.filter_cons_of_neg hx, List.filter_cons_of_pos hy]
      · rw [List.filter_cons_of_neg hy, ih]
        by_cases hx : P x = true
        · rw [List.filter_cons_of_pos hx, List.filter_cons_of_pos hx,
            List.filter_cons_of_neg hy]
        · rw [List.filter_cons_of_neg hx, List.filter_cons_of_neg hx,
            List.filter_cons_of_neg hy]

theorem jsSort_filter {α : Type} (cmp : α → α → Int) (P : α → Bool)
    (hP : ∀ a b, P a = true → P b = true → cmp a b ≤ 0) (l : List α) :
    (jsSort cmp l).filter P = l.filter P := by
  induction l with
  | nil => rfl
  | cons x xs ih =>
    show (sortInsert cmp x (jsSort cmp xs)).filter P = _
    rw [sortInsert_filter cmp P hP, List.filter_cons, List.filter_cons, ih]

/-! ## The sequential simulation -/

theorem scheduleOne_eq (st : Int × List Result) (p : Process) :
    scheduleOne st p = ((recordAt st.1 p).endTime, st.2 ++ [recordAt st.1 p]) := rfl

theorem recordAt_fields (c : Int) (p : Process) :
    (recordAt c p).processId = p.processId ∧
    (recordAt c p).startTime = max c p.arrivalTime ∧
    (recordAt c p).endTime = max c p.arrivalTime + p.burstTime ∧
    (recordAt c p).turnaroundTime = max c p.arrivalTime + p.burstTime - p.arrivalTime ∧
    (recordAt c p).waitingTime
      = max c p.arrivalTime + p.burstTime - p.arrivalTime - p.burstTime ∧
    (recordAt c p).burstTime = p.burstTime :=
  ⟨rfl, rfl, rfl, rfl, rfl, rfl⟩

theorem foldl_scheduleOne (l : List Process) (c : Int) (acc : List Result) :
    (l.foldl scheduleOne (c, acc)).2 = acc ++ recordsFrom c l := by
  induction l generalizing c acc with
  | nil => simp [recordsFrom]
  | cons p ps ih =>
    rw [List.foldl_cons, scheduleOne_eq, ih]
    simp [recordsFrom]

theorem runInOrder_eq (l : List Process) : runInOrder l = recordsFrom 0 l := by
  unfold runInOrder
  rw [foldl_scheduleOne]
  rfl

theorem recordsFrom_length (l : List Process) (c : Int) :
    (recordsFrom c l).length = l.length := by
  induction l generalizing c with
  | nil => rfl
  | cons p ps ih => simp [recordsFrom, ih]

theorem recordsFrom_getElem? (l : List Process) (c : Int) (i : Nat) (p : Process)
    (h : l[i]? = some p) :
    (recordsFrom c l)[i]? = some (recordAt
      (match i with
        | 0 => c
        | j + 1 => ((recordsFrom c l)[j]?.map Result.endTime).getD 0) p) := by
  induction l generalizing c i with
  | nil => simp at h
  | cons q qs ih =>
    cases i with
    | zero =>
      simp only [List.getElem?_cons_zero, Option.some.injEq] at h
      subst h
      simp [recordsFrom]
    | succ j =>
      simp only [List.getElem?_cons_succ] at h
      have := ih (recordAt c q).endTime j h
      simp only [recordsFrom, List.getElem?_cons_succ]
      rw [this]
      cases j with
      | zero => simp
      | succ k => simp

theorem runInOrder_getElem? (l : List Process) (i : Nat) (p : Process)
    (h : l[i]? = some p) :
    (runInOrder l)[i]? = some (recordAt (clockBefore (runInOrder l) i) p) := by
  rw [runInOrder_eq, recordsFrom_getElem? l 0 i p h]
  cases i <;> rfl

theorem cmpArrival_le (a b : Process) : cmpArrival a b ≤ 0 ↔ a.arrivalTime ≤ b.arrivalTime := by
  unfold cmpArrival
  omega

/-! ## Claim C1 -/

theorem mem_availableProcesses (s : SRTFState) (i : Nat) (c : ProcessCopy) :
    (i, c) ∈ availableProcesses s ↔
      s.processesCopy[i]? = some c ∧ c.arrivalTime ≤ s.currentTime ∧ c.processId ∉ s.completed := by
  unfold availableProcesses
  rw [List.mem_filter, List.mk_mem_enum_iff_getElem?]
  simp

theorem availableProcesses_pairwise (s : SRTFState) :
    (availableProcesses s).Pairwise (fun a b => a.1 < b.1) := by
  unfold availableProcesses
  apply List.Pairwise.filter
  have h : (s.processesCopy.enum.map Prod.fst).Pairwise (· < ·) := by
    rw [List.enum_map_fst]
    exact List.pairwise_lt_range _
  exact (List.pairwise_map.1 h)

theorem foldl_shorter_split (l L : List (Nat × ProcessCopy)) (a : Nat × ProcessCopy)
    (h : ∃ pre post, L = pre ++ a :: post ∧
      (∀ q ∈ pre, a.2.remainingTime < q.2.remainingTime) ∧
      (∀ q ∈ post, a.2.remainingTime ≤ q.2.remainingTime)) :
    ∃ pre post, L ++ l = pre ++ l.foldl shorter a :: post ∧
      (∀ q ∈ pre, (l.foldl shorter a).2.remainingTime < q.2.remainingTime) ∧
      (∀ q ∈ post, (l.foldl shorter a).2.remainingTime ≤ q.2.remainingTime) := by
  induction l generalizing L a with
  | nil => simpa using h
  | cons x xs ih =>
    have key : ∃ pre post, L ++ [x] = pre ++ shorter a x :: post ∧
        (∀ q ∈ pre, (shorter a x).2.remainingTime < q.2.remainingTime) ∧
        (∀ q ∈ post, (shorter a x).2.remainingTime ≤ q.2.remainingTime) := by
      obtain ⟨pre, post, hL, hpre, hpost⟩ := h
      unfold shorter
      split
      · rename_i hlt
        refine ⟨L, [], rfl, ?_, by simp⟩
        intro q hq
        rw [hL] at hq
        rcases List.mem_append.1 hq with hq | hq
        · exact lt_trans hlt (hpre q hq)
        · rcases List.mem_cons.1 hq with rfl | hq
          · exact hlt
          · exact lt_of_lt_of_le hlt (hpost q hq)
      · rename_i hge
        refine ⟨pre, post ++ [x], by simp [hL], hpre, ?_⟩
        intro q hq
        rcases List.mem_append.1 hq with hq | hq
        · exact hpost q hq
        · simp only [List.mem_singleton] at hq
          subst hq
          omega
    have := ih (L ++ [x]) (shorter a x) key
    simpa using this

theorem srtfBody_cases (s : SRTFState) :
    (availableProcesses s = [] ∧ srtfBody s = { s with currentTime := s.currentTime + 1 }) ∨
    (∃ i c, (i, c) ∈ availableProcesses s ∧
      (∀ jq ∈ availableProcesses s, c.remainingTime ≤ jq.2.remainingTime ∧
        (jq.1 < i → c.remainingTime < jq.2.remainingTime)) ∧
      srtfBody s = srtfExecute s (i, c)) := by
  unfold srtfBody
  cases hav : availableProcesses s with
  | nil => exact Or.inl ⟨rfl, rfl⟩
  | cons first rest =>
    right
    obtain ⟨pre, post, hsplit, hpre, hpost⟩ :=
      foldl_shorter_split rest [first] first ⟨[], [], rfl, by simp, by simp⟩
    have hpw := availableProcesses_pairwise s
    rw [hav] at hpw
    simp only [List.singleton_append] at hsplit
    rw [hsplit] at hpw
    refine ⟨(rest.foldl shorter first).1, (rest.foldl shorter first).2, ?_, ?_, rfl⟩
    · rw [hsplit]; simp
    · intro jq hjq
      rw [hsplit] at hjq
      have hpw2 := List.pairwise_append.1 hpw
      rcases List.mem_append.1 hjq with hq | hq
      · exact ⟨le_of_lt (hpre jq hq), fun _ => hpre jq hq⟩
      · rcases List.mem_cons.1 hq with rfl | hq
        · exact ⟨le_refl _, fun h => absurd h (lt_irrefl _)⟩
        · refine ⟨hpost jq hq, fun h => ?_⟩
          have := (List.pairwise_cons.1 hpw2.2.1).1 jq hq
          omega

theorem srtfExecute_ganttChart (s : SRTFState) (ic : Nat × ProcessCopy) :
    (srtfExecute s ic).ganttChart = s.ganttChart ++ [⟨ic.2.processId, s.currentTime⟩] := by
  unfold srtfExecute; dsimp only; split <;> rfl

theorem srtfExecute_currentTime (s : SRTFState) (ic : Nat × ProcessCopy) :
    (srtfExecute s ic).currentTime = s.currentTime + 1 := by
  unfold srtfExecute; dsimp only; split <;> rfl

theorem srtfExecute_processesCopy (s : SRTFState) (ic : Nat × ProcessCopy) :
    (srtfExecute s ic).processesCopy
      = s.processesCopy.set ic.1 { ic.2 with remainingTime := ic.2.remainingTime - 1 } := by
  unfold srtfExecute; dsimp only; split <;> rfl

theorem srtfExecute_completed (s : SRTFState) (ic : Nat × ProcessCopy) :
    (srtfExecute s ic).completed
      = if ic.2.remainingTime - 1 = 0 then setAdd s.completed ic.2.processId else s.completed := by
  unfold srtfExecute; dsimp only; split <;> rfl

/-! ## List helpers -/

theorem mem_set_cases {α : Type} {l : List α} {i : Nat} {new x : α}
    (hx : x ∈ l.set i new) : x = new ∨ ∃ j, j ≠ i ∧ l[j]? = some x := by
  obtain ⟨j, hj⟩ := List.mem_iff_getElem?.1 hx
  rw [List.getElem?_set] at hj
  split at hj
  · split at hj
    · left; simpa using hj.symm
    · simp at hj
  · rename_i hne
    exact Or.inr ⟨j, fun h => hne h.symm, hj⟩

theorem copy_index_unique {l : List ProcessCopy}
    (hnd : (l.map ProcessCopy.processId).Nodup) {i j : Nat} {c x : ProcessCopy}
    (hi : l[i]? = some c) (hj : l[j]? = some x) (hid : x.processId = c.processId) : j = i := by
  have hi2 : (l.map ProcessCopy.processId)[i]? = some c.processId := by
    rw [List.getElem?_map, hi]; rfl
  have hj2 : (l.map ProcessCopy.processId)[j]? = some c.processId := by
    rw [List.getElem?_map, hj, ← hid]; rfl
  have hil : i < (l.map ProcessCopy.processId).length := by
    by_contra h
    rw [List.getElem?_eq_none (by omega)] at hi2
    cases hi2
  have hjl : j < (l.map ProcessCopy.processId).length := by
    by_contra h
    rw [List.getElem?_eq_none (by omega)] at hj2
    cases hj2
  rw [List.nodup_iff_getElem?_ne_getElem?] at hnd
  by_contra hne
  rcases Nat.lt_or_gt_of_ne hne with h | h
  · exact hnd j i h hil (hj2.trans hi2.symm)
  · exact hnd i j h hjl (hi2.trans hj2.symm)

theorem sum_map_set {α : Type} (f : α → Nat) (l : List α) (i : Nat) (c new : α)
    (h : l[i]? = some c) :
    ((l.set i new).map f).sum + f c = (l.map f).sum + f new := by
  induction l generalizing i with
  | nil => simp at h
  | cons y ys ih =>
    cases i with
    | zero =>
      simp only [List.getElem?_cons_zero, Option.some.injEq] at h
      subst h
      simp only [List.set_cons_zero, List.map_cons, List.sum_cons]
      omega
    | succ k =>
      simp only [List.getElem?_cons_succ] at h
      have := ih k h
      simp only [List.set_cons_succ, List.map_cons, List.sum_cons]
      omega

theorem le_maxArrival (processes : List Process) (p : Process) (hp : p ∈ processes) :
    p.arrivalTime ≤ maxArrival processes := by
  induction processes with
  | nil => simp at hp
  | cons q qs ih =>
    unfold maxArrival
    simp only [List.foldr_cons]
    rcases List.mem_cons.1 hp with rfl | hp
    · exact le_max_left _ _
    · exact le_trans (ih hp) (le_max_right _ _)

theorem copies_ids_nodup {processes : List Process} {l : List ProcessCopy}
    (h : l.map ProcessCopy.toProcess = processes)
    (hnd : (processes.map Process.processId).Nodup) :
    (l.map ProcessCopy.processId).Nodup := by
  rw [← h, List.map_map] at hnd
  exact hnd

/-! ## Invariants of the loop of `calculateSRTF` -/

theorem timelineInv_init (processes : List Process) : TimelineInv (srtfInit processes) := by
  refine ⟨?_, ?_, ?_, ?_⟩ <;> simp [srtfInit]

theorem timelineInv_body (s : SRTFState) (h : TimelineInv s) : TimelineInv (srtfBody s) := by
  rcases srtfBody_cases s with ⟨hav, hb⟩ | ⟨i, c, hmem, -, hb⟩
  · rw [hb]
    refine ⟨fun e he => ?_, h.ticks_sorted, fun e he hnc => ?_, h.contiguous⟩
    · have := h.ticks_lt e he
      show e.startTime < s.currentTime + 1
      omega
    · exfalso
      obtain ⟨ht, c, hc, hid, harr⟩ := h.last_running e he hnc
      obtain ⟨j, hj⟩ := List.mem_iff_getElem?.1 hc
      have : (j, c) ∈ availableProcesses s := by
        rw [mem_availableProcesses]
        exact ⟨hj, by omega, by rw [hid]; exact hnc⟩
      rw [hav] at this
      cases this
  · rw [hb]
    have hm := (mem_availableProcesses s i c).1 hmem
    refine ⟨?_, ?_, ?_, ?_⟩
    · intro e he
      rw [srtfExecute_ganttChart] at he
      rw [srtfExecute_currentTime]
      rcases List.mem_append.1 he with he | he
      · have := h.ticks_lt e he
        omega
      · simp only [List.mem_singleton] at he
        subst he
        show s.currentTime < s.currentTime + 1
        omega
    · rw [srtfExecute_ganttChart]
      refine List.pairwise_append.2 ⟨h.ticks_sorted, List.pairwise_singleton _ _, ?_⟩
      intro a ha b hb2
      simp only [List.mem_singleton] at hb2
      subst hb2
      exact h.ticks_lt a ha
    · intro e he _
      rw [srtfExecute_ganttChart, List.getLast?_concat] at he
      simp only [Option.some.injEq] at he
      subst he
      rw [srtfExecute_currentTime, srtfExecute_processesCopy]
      have hlt : i < s.processesCopy.length := by
        by_contra hlt
        rw [List.getElem?_eq_none (by omega)] at hm
        cases hm.1
      exact ⟨rfl, _, List.mem_set _ _ hlt _, rfl, hm.2.1⟩
    · rw [srtfExecute_ganttChart]
      refine List.chain'_append.2 ⟨h.contiguous, List.chain'_singleton _, ?_⟩
      intro x hx y hy hid
      simp only [List.head?_cons, Option.mem_def, Option.some.injEq] at hy
      subst hy
      have := (h.last_running x hx (by rw [hid]; exact hm.2.2)).1
      show s.currentTime = x.startTime + 1
      exact this


theorem srtfInv_init (processes : List Process) (hv : ValidInput processes) :
    SRTFInv processes (srtfInit processes) := by
  refine ⟨?_, ?_, ?_, ?_, ?_, ?_⟩
  · simp only [srtfInit, List.map_map]
    conv_rhs => rw [← List.map_id processes]
    apply List.map_congr_left
    intro p _
    rfl
  · intro c hc
    simp only [srtfInit, List.mem_map] at hc
    obtain ⟨p, hp, rfl⟩ := hc
    exact le_of_lt (hv.2 p hp).2
  · intro c hc
    simp only [srtfInit, List.mem_map] at hc
    obtain ⟨p, hp, rfl⟩ := hc
    have := (hv.2 p hp).2
    simp only [srtfInit, List.not_mem_nil, false_iff]
    omega
  · simp [srtfInit]
  · simp [srtfInit]
  · intro c hc
    simp only [srtfInit, List.mem_map] at hc
    obtain ⟨p, hp, rfl⟩ := hc
    simp [srtfInit]

theorem setAdd_of_not_mem (completed : List String) (id : String) (h : id ∉ completed) :
    setAdd completed id = completed ++ [id] := by
  unfold setAdd
  simp [h]

theorem getElem?_lt {α : Type} {l : List α} {i : Nat} {c : α} (h : l[i]? = some c) :
    i < l.length := by
  by_contra hlt
  rw [List.getElem?_eq_none (by omega)] at h
  cases h

theorem tick_count_append (g : List Tick) (id id2 : String) (t : Int) :
    ((g ++ [Tick.mk id2 t]).filter (fun e => e.processId == id)).length
      = (g.filter (fun e => e.processId == id)).length + if id2 = id then 1 else 0 := by
  rw [List.filter_append, List.length_append]
  by_cases h : id2 = id
  · simp [List.filter_singleton, h]
  · simp [List.filter_singleton, h]

theorem srtfInv_body (processes : List Process)
    (hnd : (processes.map Process.processId).Nodup) (s : SRTFState)
    (h : SRTFInv processes s) : SRTFInv processes (srtfBody s) := by
  rcases srtfBody_cases s with ⟨-, hb⟩ | ⟨i, c, hmem, -, hb⟩
  · rw [hb]
    exact ⟨h.copies, h.rem_nonneg, h.completed_iff, h.completed_nodup, h.completed_sub, h.ticks⟩
  · rw [hb]
    obtain ⟨hi, harr, hnc⟩ := (mem_availableProcesses s i c).1 hmem
    have hcm : c ∈ s.processesCopy := List.mem_iff_getElem?.2 ⟨i, hi⟩
    have hlt := getElem?_lt hi
    have hids := copies_ids_nodup h.copies hnd
    have hrem : 1 ≤ c.remainingTime := by
      have h0 := h.rem_nonneg c hcm
      have h1 : c.remainingTime ≠ 0 := fun h1 => hnc ((h.completed_iff c hcm).2 h1)
      omega
    have hother : ∀ x, x ∈ (srtfExecute s (i, c)).processesCopy →
        x = { c with remainingTime := c.remainingTime - 1 } ∨
          (x ∈ s.processesCopy ∧ x.processId ≠ c.processId) := by
      intro x hx
      rw [srtfExecute_processesCopy] at hx
      rcases mem_set_cases hx with hx | ⟨j, hj, hjx⟩
      · exact Or.inl hx
      · exact Or.inr ⟨List.mem_iff_getElem?.2 ⟨j, hjx⟩,
          fun hid => hj (copy_index_unique hids hi hjx hid)⟩
    refine ⟨?_, ?_, ?_, ?_, ?_, ?_⟩
    · rw [srtfExecute_processesCopy, ← h.copies]
      apply List.ext_getElem?
      intro k
      simp only [List.getElem?_map, List.getElem?_set]
      by_cases hk : i = k
      · subst hk
        simp [hlt, hi, ProcessCopy.toProcess]
      · simp [hk]
    · intro x hx
      rcases hother x hx with rfl | ⟨hx, -⟩
      · show 0 ≤ c.remainingTime - 1
        omega
      · exact h.rem_nonneg x hx
    · intro x hx
      rw [srtfExecute_completed]
      rcases hother x hx with rfl | ⟨hx, hid⟩
      · show c.processId ∈ _ ↔ c.remainingTime - 1 = 0
        split
        · rename_i h0
          simp [setAdd_of_not_mem _ _ hnc, h0]
        · rename_i h0
          simp [hnc, h0]
      · rw [← h.completed_iff x hx]
        split
        · simp [setAdd_of_not_mem _ _ hnc, hid]
        · rfl
    · rw [srtfExecute_completed]
      split
      · rw [setAdd_of_not_mem _ _ hnc]
        exact List.Nodup.append h.completed_nodup (List.nodup_singleton _)
          (by
            intro a ha ha2
            simp only [List.mem_singleton] at ha2
            subst ha2
            exact hnc ha)
      · exact h.completed_nodup
    · intro id hid
      rw [srtfExecute_completed] at hid
      split at hid
      · rw [setAdd_of_not_mem _ _ hnc] at hid
        rcases List.mem_append.1 hid with hid | hid
        · exact h.completed_sub id hid
        · simp only [List.mem_singleton] at hid
          subst hid
          rw [← h.copies, List.map_map]
          exact List.mem_map.2 ⟨c, hcm, rfl⟩
      · exact h.completed_sub id hid
    · intro x hx
      rw [srtfExecute_ganttChart, tick_count_append]
      rcases hother x hx with rfl | ⟨hx, hid⟩
      · have := h.ticks c hcm
        show ((_ + if c.processId = c.processId then 1 else 0 : Nat) : Int)
          = c.burstTime - (c.remainingTime - 1)
        rw [if_pos rfl]
        push_cast
        omega
      · have := h.ticks x hx
        show ((_ + if c.processId = x.processId then 1 else 0 : Nat) : Int) = _
        rw [if_neg (fun h => hid h.symm)]
        simpa using this

/-! ## Termination of `calculateSRTF` on valid input -/

theorem all_completed_of_length {processes : List Process} {s : SRTFState}
    (h : SRTFInv processes s) (hlen : processes.length ≤ s.completed.length) :
    ∀ p ∈ processes, p.processId ∈ s.completed := by
  have hsub : s.completed ⊆ processes.map Process.processId := h.completed_sub
  have hsp := h.completed_nodup.subperm hsub
  have hperm := hsp.perm_of_length_le (by simpa using hlen)
  intro p hp
  exact hperm.symm.subset (List.mem_map.2 ⟨p, hp, rfl⟩)

theorem exists_incomplete {processes : List Process}
    (hnd : (processes.map Process.processId).Nodup) {s : SRTFState}
    (h : SRTFInv processes s) (hlen : s.completed.length < processes.length) :
    ∃ c ∈ s.processesCopy, c.processId ∉ s.completed := by
  by_contra hno
  push_neg at hno
  have hsub : processes.map Process.processId ⊆ s.completed := by
    intro id hid
    rw [← h.copies, List.map_map] at hid
    obtain ⟨c, hc, rfl⟩ := List.mem_map.1 hid
    exact hno c hc
  have := (hnd.subperm hsub).length_le
  simp only [List.length_map] at this
  omega

theorem srtfMeasure_body (processes : List Process)
    (hnd : (processes.map Process.processId).Nodup) (s : SRTFState)
    (h : SRTFInv processes s) (hlen : s.completed.length < processes.length) :
    srtfMeasure processes (srtfBody s) < srtfMeasure processes s := by
  rcases srtfBody_cases s with ⟨hav, hb⟩ | ⟨i, c, hmem, -, hb⟩
  · rw [hb]
    obtain ⟨c, hc, hnc⟩ := exists_incomplete hnd h hlen
    obtain ⟨j, hj⟩ := List.mem_iff_getElem?.1 hc
    have hnot : ¬ c.arrivalTime ≤ s.currentTime := by
      intro harr
      have : (j, c) ∈ availableProcesses s := (mem_availableProcesses s j c).2 ⟨hj, harr, hnc⟩
      rw [hav] at this
      cases this
    have hmax : c.arrivalTime ≤ maxArrival processes := by
      have : c.toProcess ∈ processes := by
        rw [← h.copies]
        exact List.mem_map.2 ⟨c, hc, rfl⟩
      exact le_maxArrival processes _ this
    unfold srtfMeasure
    dsimp only
    omega
  · rw [hb]
    obtain ⟨hi, harr, hnc⟩ := (mem_availableProcesses s i c).1 hmem
    have hcm : c ∈ s.processesCopy := List.mem_iff_getElem?.2 ⟨i, hi⟩
    have hrem : 1 ≤ c.remainingTime := by
      have h0 := h.rem_nonneg c hcm
      have h1 : c.remainingTime ≠ 0 := fun h1 => hnc ((h.completed_iff c hcm).2 h1)
      omega
    unfold srtfMeasure
    rw [srtfExecute_processesCopy, srtfExecute_currentTime]
    have hs := sum_map_set (fun c : ProcessCopy => c.remainingTime.toNat) s.processesCopy i c
      { c with remainingTime := c.remainingTime - 1 } hi
    have e1 : (c.remainingTime - 1).toNat + 1 = c.remainingTime.toNat := by omega
    dsimp only at hs ⊢
    omega

theorem srtfLoop_terminates (processes : List Process)
    (hnd : (processes.map Process.processId).Nodup) :
    ∀ (k : Nat) (s : SRTFState), SRTFInv processes s → TimelineInv s →
      srtfMeasure processes s ≤ k →
      ∃ s2, srtfLoop processes.length k s = some s2 ∧ SRTFInv processes s2 ∧ TimelineInv s2 ∧
        processes.length ≤ s2.completed.length := by
  intro k
  induction k with
  | zero =>
    intro s h ht hk
    by_cases hlen : s.completed.length < processes.length
    · have := srtfMeasure_body processes hnd s h hlen
      omega
    · exact ⟨s, by simp [srtfLoop, hlen], h, ht, by omega⟩
  | succ k ih =>
    intro s h ht hk
    by_cases hlen : s.completed.length < processes.length
    · have hm := srtfMeasure_body processes hnd s h hlen
      obtain ⟨s2, hs2, r⟩ := ih (srtfBody s) (srtfInv_body processes hnd s h)
        (timelineInv_body s ht) (by omega)
      exact ⟨s2, by simp [srtfLoop, hlen, hs2], r⟩
    · exact ⟨s, by simp [srtfLoop, hlen], h, ht, by omega⟩

theorem srtfLoop_mono (n : Nat) (fuel : Nat) (s r : SRTFState)
    (h : srtfLoop n fuel s = some r) (k : Nat) : srtfLoop n (fuel + k) s = some r := by
  induction fuel generalizing s with
  | zero =>
    simp only [srtfLoop] at h
    split at h
    · cases h
    · rename_i hlen
      cases k with
      | zero => simp [srtfLoop, hlen, h]
      | succ k => simpa [srtfLoop, hlen] using h
  | succ f ih =>
    simp only [srtfLoop] at h
    rw [show f + 1 + k = (f + k) + 1 by omega]
    simp only [srtfLoop]
    split at h
    · rename_i hlen
      rw [if_pos hlen]
      exact ih _ h
    · rename_i hlen
      rw [if_neg hlen]
      exact h

theorem srtfLoop_unique (n : Nat) (f1 f2 : Nat) (s r1 r2 : SRTFState)
    (h1 : srtfLoop n f1 s = some r1) (h2 : srtfLoop n f2 s = some r2) : r1 = r2 := by
  have a := srtfLoop_mono n f1 s r1 h1 f2
  have b := srtfLoop_mono n f2 s r2 h2 f1
  rw [Nat.add_comm] at b
  rw [a] at b
  exact Option.some.inj b

theorem srtfMeasure_init (processes : List Process) :
    srtfMeasure processes (srtfInit processes) = srtfFuel processes := by
  simp [srtfMeasure, srtfFuel, srtfInit, Function.comp_def]

theorem calculateSRTF_returns (processes : List Process) (hv : ValidInput processes) :
    ∃ s, calculateSRTF (srtfFuel processes) processes = some s ∧ SRTFInv processes s ∧
      TimelineInv s ∧ processes.length ≤ s.completed.length :=
  srtfLoop_terminates processes hv.1 (srtfFuel processes) (srtfInit processes)
    (srtfInv_init processes hv) (timelineInv_init processes)
    (le_of_eq (srtfMeasure_init processes))

theorem srtf_final_ticks {processes : List Process} {s : SRTFState}
    (h : SRTFInv processes s) (hlen : processes.length ≤ s.completed.length)
    (p : Process) (hp : p ∈ processes) :
    ((s.ganttChart.filter (fun e => e.processId == p.processId)).length : Int) = p.burstTime := by
  have hp2 := hp
  rw [← h.copies] at hp2
  obtain ⟨c, hc, rfl⟩ := List.mem_map.1 hp2
  have hcomp := all_completed_of_length h hlen c.toProcess hp
  have h0 := (h.completed_iff c hc).1 hcomp
  have := h.ticks c hc
  show _ = c.burstTime
  rw [h0] at this
  simpa using this

/-! ## The loop of `calculateRR` -/

theorem rrBody_results (q : Int) (p : Process) (rest : List Process) (rs : List Result)
    (t : Int) :
    (rrBody q p rest rs t).results = rs ++ [{ processId := p.processId
                                              startTime := max t p.arrivalTime
                                              endTime := max t p.arrivalTime + min p.burstTime q
                                              turnaroundTime :=
                                                max t p.arrivalTime + min p.burstTime q
                                                  - p.arrivalTime
                                              waitingTime :=
                                                max t p.arrivalTime + min p.burstTime q
                                                  - p.arrivalTime - p.burstTime
                                              burstTime := p.burstTime }] := by
  unfold rrBody; dsimp only; split <;> rfl

theorem rrBody_currentTime (q : Int) (p : Process) (rest : List Process) (rs : List Result)
    (t : Int) :
    (rrBody q p rest rs t).currentTime = max t p.arrivalTime + min p.burstTime q := by
  unfold rrBody; dsimp only; split <;> rfl

theorem rrBody_queue (q : Int) (p : Process) (rest : List Process) (rs : List Result)
    (t : Int) :
    (rrBody q p rest rs t).queue =
      if p.burstTime > q then
        rest ++ [{ p with burstTime := p.burstTime - q
                          arrivalTime := max t p.arrivalTime + min p.burstTime q }]
      else rest := by
  unfold rrBody; dsimp only; split <;> rfl

theorem burstOf_cons (id : String) (p : Process) (l : List Process) :
    burstOf id (p :: l) = (if p.processId = id then p.burstTime else 0) + burstOf id l := by
  unfold burstOf
  by_cases h : p.processId = id
  · simp [List.filter_cons, h]
  · simp [List.filter_cons, h]

theorem burstOf_append (id : String) (l1 l2 : List Process) :
    burstOf id (l1 ++ l2) = burstOf id l1 + burstOf id l2 := by
  unfold burstOf
  simp [List.filter_append]

theorem burstOf_perm (id : String) {l1 l2 : List Process} (h : l1.Perm l2) :
    burstOf id l1 = burstOf id l2 := by
  unfold burstOf
  exact ((h.filter _).map _).sum_eq

theorem durationOf_append (id : String) (l1 l2 : List Result) :
    durationOf id (l1 ++ l2) = durationOf id l1 + durationOf id l2 := by
  unfold durationOf
  simp [List.filter_append]

theorem durationOf_singleton (id : String) (r : Result) :
    durationOf id [r] = if r.processId = id then r.endTime - r.startTime else 0 := by
  unfold durationOf
  by_cases h : r.processId = id
  · simp [List.filter_cons, h]
  · simp [List.filter_cons, h]

theorem rrInv_body (processes : List Process) (q : Int) (hq : 0 < q) (p : Process)
    (rest : List Process) (rs : List Result) (t : Int)
    (h : RRInv processes { queue := p :: rest, results := rs, currentTime := t }) :
    RRInv processes (rrBody q p rest rs t) := by
  have hp := h.queue_pos p (List.mem_cons_self _ _)
  refine ⟨?_, ?_, ?_, ?_, ?_⟩
  · intro id
    have := h.total id
    rw [burstOf_cons] at this
    rw [rrBody_results, rrBody_queue, durationOf_append, durationOf_singleton]
    have hnil : burstOf id [] = 0 := rfl
    dsimp only at this ⊢
    by_cases hgt : p.burstTime > q
    · rw [if_pos hgt, burstOf_append, burstOf_cons, hnil]
      dsimp only
      by_cases hid : p.processId = id
      · simp only [if_pos hid] at this ⊢
        omega
      · simp only [if_neg hid] at this ⊢
        omega
    · rw [if_neg hgt]
      by_cases hid : p.processId = id
      · simp only [if_pos hid] at this ⊢
        omega
      · simp only [if_neg hid] at this ⊢
        omega
  · intro x hx
    rw [rrBody_queue] at hx
    split at hx
    · rcases List.mem_append.1 hx with hx | hx
      · exact h.queue_pos x (List.mem_cons_of_mem _ hx)
      · simp only [List.mem_singleton] at hx
        subst hx
        show 0 < p.burstTime - q
        omega
    · exact h.queue_pos x (List.mem_cons_of_mem _ hx)
  · intro r hr
    rw [rrBody_results] at hr
    rw [rrBody_currentTime]
    rcases List.mem_append.1 hr with hr | hr
    · have := h.ends_le r hr
      dsimp only at this
      omega
    · simp only [List.mem_singleton] at hr
      subst hr
      exact le_refl _
  · rw [rrBody_results]
    refine List.pairwise_append.2 ⟨h.ordered, List.pairwise_singleton _ _, ?_⟩
    intro a ha b hb
    simp only [List.mem_singleton] at hb
    subst hb
    have := h.ends_le a ha
    dsimp only at this ⊢
    omega
  · intro r hr
    rw [rrBody_results] at hr
    rcases List.mem_append.1 hr with hr | hr
    · exact h.nonempty r hr
    · simp only [List.mem_singleton] at hr
      subst hr
      dsimp only
      omega

theorem rrMeasure_body (q : Int) (hq : 0 < q) (p : Process) (rest : List Process)
    (rs : List Result) (t : Int) :
    rrMeasure (rrBody q p rest rs t)
      < rrMeasure { queue := p :: rest, results := rs, currentTime := t } := by
  unfold rrMeasure
  rw [rrBody_queue]
  dsimp only
  split
  · simp only [List.map_append, List.map_cons, List.map_nil, List.sum_append, List.sum_cons,
      List.sum_nil]
    omega
  · simp only [List.map_cons, List.sum_cons]
    omega

theorem rrLoop_terminates (processes : List Process) (q : Int) (hq : 0 < q) :
    ∀ (k : Nat) (s : RRState), RRInv processes s → rrMeasure s ≤ k →
      ∃ s2, rrLoop q k s = some s2 ∧ RRInv processes s2 ∧ s2.queue = [] := by
  intro k
  induction k with
  | zero =>
    intro s h hk
    obtain ⟨queue, rs, t⟩ := s
    cases queue with
    | nil => exact ⟨_, rfl, h, rfl⟩
    | cons p rest =>
      simp [rrMeasure] at hk
  | succ k ih =>
    intro s h hk
    obtain ⟨queue, rs, t⟩ := s
    cases queue with
    | nil => exact ⟨_, rfl, h, rfl⟩
    | cons p rest =>
      have hm := rrMeasure_body q hq p rest rs t
      obtain ⟨s2, hs2, r⟩ := ih (rrBody q p rest rs t) (rrInv_body processes q hq p rest rs t h)
        (by omega)
      exact ⟨s2, hs2, r⟩

theorem rrInv_init (processes : List Process) (hv : PositiveTimes processes) :
    RRInv processes { queue := jsSort cmpArrival processes, results := [], currentTime := 0 } := by
  refine ⟨?_, ?_, ?_, ?_, ?_⟩
  · intro id
    rw [burstOf_perm id (jsSort_perm cmpArrival processes)]
    simp [durationOf]
  · intro p hp
    exact (hv p ((jsSort_perm cmpArrival processes).subset hp)).2
  · simp
  · simp
  · simp

theorem calculateRR_returns (processes : List Process) (hv : PositiveTimes processes) (q : Int)
    (hq : 0 < q) :
    ∃ rs, calculateRR q (rrFuel processes) processes = some rs ∧
      (∀ id, durationOf id rs = burstOf id processes) ∧
      rs.Pairwise (fun a b => a.endTime ≤ b.startTime) ∧
      (∀ r ∈ rs, r.startTime < r.endTime) := by
  obtain ⟨s2, hs2, hinv, hq2⟩ := rrLoop_terminates processes q hq (rrFuel processes) _
    (rrInv_init processes hv)
    (le_of_eq (((jsSort_perm cmpArrival processes).map _).sum_eq))
  refine ⟨s2.results, by simp [calculateRR, hs2], ?_, hinv.ordered, hinv.nonempty⟩
  intro id
  have := hinv.total id
  rw [hq2] at this
  simpa [burstOf] using this

theorem burstOf_of_nodup (processes : List Process)
    (hnd : (processes.map Process.processId).Nodup) (p : Process) (hp : p ∈ processes) :
    burstOf p.processId processes = p.burstTime := by
  induction processes with
  | nil => simp at hp
  | cons x xs ih =>
    rw [burstOf_cons]
    simp only [List.map_cons, List.nodup_cons, List.mem_map, not_exists, not_and] at hnd
    rcases List.mem_cons.1 hp with rfl | hp
    · have : burstOf p.processId xs = 0 := by
        unfold burstOf
        rw [List.filter_eq_nil_iff.2]
        · rfl
        · intro y hy
          simpa using hnd.1 y hy
      simp [this]
    · rw [if_neg (fun h => hnd.1 p hp h.symm), ih hnd.2 hp]
      simp

/-! ## Claim C3 -/

theorem rrLoop_mono (q : Int) (fuel : Nat) (s r : RRState)
    (h : rrLoop q fuel s = some r) (k : Nat) : rrLoop q (fuel + k) s = some r := by
  induction fuel generalizing s with
  | zero =>
    obtain ⟨queue, rs, t⟩ := s
    cases queue with
    | nil =>
      cases k with
      | zero => exact h
      | succ k => simpa [rrLoop] using h
    | cons p rest => simp [rrLoop] at h
  | succ f ih =>
    obtain ⟨queue, rs, t⟩ := s
    rw [show f + 1 + k = (f + k) + 1 by omega]
    cases queue with
    | nil => simpa [rrLoop] using h
    | cons p rest =>
      simp only [rrLoop] at h ⊢
      exact ih _ h

theorem calculateRR_unique (q : Int) (f1 f2 : Nat) (processes : List Process)
    (r1 r2 : List Result) (h1 : calculateRR q f1 processes = some r1)
    (h2 : calculateRR q f2 processes = some r2) : r1 = r2 := by
  unfold calculateRR at h1 h2
  simp only [Option.map_eq_some'] at h1 h2
  obtain ⟨s1, hs1, rfl⟩ := h1
  obtain ⟨s2, hs2, rfl⟩ := h2
  have a := rrLoop_mono q f1 _ s1 hs1 f2
  have b := rrLoop_mono q f2 _ s2 hs2 f1
  rw [Nat.add_comm] at b
  rw [a] at b
  rw [Option.some.inj b]

theorem srtfLoop_timeline (n : Nat) (fuel : Nat) (s r : SRTFState)
    (h : srtfLoop n fuel s = some r) (ht : TimelineInv s) : TimelineInv r := by
  induction fuel generalizing s with
  | zero =>
    simp only [srtfLoop] at h
    split at h
    · cases h
    · cases h; exact ht
  | succ f ih =>
    simp only [srtfLoop] at h
    split at h
    · exact ih _ h (timelineInv_body s ht)
    · cases h; exact ht

theorem segmentTime_results (id : String) (rs : List Result) :
    segmentTime id (rs.map Result.segment) = durationOf id rs := by
  unfold segmentTime durationOf
  rw [List.filter_map, List.map_map]
  rfl

theorem segmentTime_ticks (id : String) (g : List Tick) :
    segmentTime id (g.map Tick.segment)
      = ((g.filter (fun e => e.processId == id)).length : Int) := by
  unfold segmentTime
  rw [List.filter_map, List.map_map]
  induction g with
  | nil => rfl
  | cons e es ih =>
    by_cases h : e.processId = id
    · simp only [List.filter_cons, Function.comp, Tick.segment, h, beq_self_eq_true,
        ↓reduceIte, List.map_cons, List.sum_cons, List.length_cons] at ih ⊢
      rw [ih]
      push_cast
      omega
    · have hb : (e.processId == id) = false := by simpa using h
      simp only [List.filter_cons, Function.comp, Tick.segment, hb] at ih ⊢
      exact ih

theorem durationOf_recordsFrom (id : String) (l : List Process) (c : Int) :
    durationOf id (recordsFrom c l) = burstOf id l := by
  induction l generalizing c with
  | nil => rfl
  | cons p ps ih =>
    have := durationOf_append id [recordAt c p] (recordsFrom (recordAt c p).endTime ps)
    simp only [List.singleton_append] at this
    rw [recordsFrom, this, durationOf_singleton, burstOf_cons, ih]
    simp only [recordAt]
    split <;> omega

theorem runInOrder_segmentTime (cmp : Process → Process → Int) (processes : List Process)
    (hnd : (processes.map Process.processId).Nodup) (p : Process) (hp : p ∈ processes) :
    segmentTime p.processId ((runInOrder (jsSort cmp processes)).map Result.segment)
      = p.burstTime := by
  rw [segmentTime_results, runInOrder_eq, durationOf_recordsFrom,
    burstOf_perm _ (jsSort_perm cmp processes), burstOf_of_nodup processes hnd p hp]

theorem recordsFrom_ordered (l : List Process) (hpos : ∀ p ∈ l, 0 < p.burstTime) (c : Int) :
    (recordsFrom c l).Pairwise (fun a b => a.endTime ≤ b.startTime) ∧
      ∀ r ∈ recordsFrom c l, c ≤ r.startTime ∧ r.startTime < r.endTime := by
  induction l generalizing c with
  | nil => simp [recordsFrom]
  | cons p ps ih =>
    have hp := hpos p (List.mem_cons_self _ _)
    obtain ⟨h1, h2⟩ := ih (fun x hx => hpos x (List.mem_cons_of_mem _ hx)) (recordAt c p).endTime
    have hs : c ≤ (recordAt c p).startTime ∧ (recordAt c p).startTime < (recordAt c p).endTime := by
      simp only [recordAt]
      omega
    refine ⟨List.pairwise_cons.2 ⟨fun r hr => (h2 r hr).1, h1⟩, ?_⟩
    intro r hr
    rcases List.mem_cons.1 hr with rfl | hr
    · exact hs
    · have := h2 r hr
      omega

theorem runInOrder_ordered (cmp : Process → Process → Int) (processes : List Process)
    (hpos : PositiveTimes processes) :
    ((runInOrder (jsSort cmp processes)).map Result.segment).Pairwise
        (fun a b => a.startTime ≤ b.startTime ∧ a.endTime ≤ b.startTime) ∧
      ∀ sg ∈ (runInOrder (jsSort cmp processes)).map Result.segment,
        sg.startTime < sg.endTime := by
  rw [runInOrder_eq]
  obtain ⟨h1, h2⟩ := recordsFrom_ordered (jsSort cmp processes)
    (fun p hp => (hpos p ((jsSort_perm cmp processes).subset hp)).2) 0
  constructor
  · rw [List.pairwise_map]
    refine h1.imp_of_mem ?_
    intro a b ha _ hab
    have := (h2 a ha).2
    simp only [Result.segment]
    omega
  · intro sg hsg
    obtain ⟨r, hr, rfl⟩ := List.mem_map.1 hsg
    exact (h2 r hr).2

theorem chartEvent_same (st : ChartState) (e : Tick) (h : st.currentProcess = some e.processId) :
    chartEvent st e = st := by
  unfold chartEvent
  simp [h]

theorem chartEvent_change (cur : String) (start : Int) (blocks : List Block) (e : Tick)
    (h : cur ≠ e.processId) :
    chartEvent { currentProcess := some cur, startTime := start, blocks := blocks } e
      = { currentProcess := some e.processId, startTime := e.startTime
          blocks := blocks ++ [{ processId := some cur, startTime := start
                                 endTime := e.startTime
                                 duration := e.startTime - start }] } := by
  unfold chartEvent
  simp [h]

theorem foldl_chartEvent_heads (es : List Tick) (cur : String) (start : Int)
    (blocks : List Block) :
    ∃ cur2 start2 blocks2,
      es.foldl chartEvent { currentProcess := some cur, startTime := start, blocks := blocks }
        = { currentProcess := some cur2, startTime := start2, blocks := blocks2 } ∧
      blocks2.map Block.head ++ [(some cur2, start2)]
        = blocks.map Block.head ++ (some cur, start) :: blockHeads cur es := by
  induction es generalizing cur start blocks with
  | nil => exact ⟨cur, start, blocks, rfl, rfl⟩
  | cons e es ih =>
    by_cases h : cur = e.processId
    · obtain ⟨cur2, start2, blocks2, h1, h2⟩ := ih cur start blocks
      refine ⟨cur2, start2, blocks2, ?_, ?_⟩
      · rw [List.foldl_cons, chartEvent_same _ _ (by simp [h])]
        exact h1
      · rw [h2]
        simp [blockHeads, h]
    · obtain ⟨cur2, start2, blocks2, h1, h2⟩ := ih e.processId e.startTime
        (blocks ++ [{ processId := some cur, startTime := start, endTime := e.startTime
                      duration := e.startTime - start }])
      refine ⟨cur2, start2, blocks2, ?_, ?_⟩
      · rw [List.foldl_cons, chartEvent_change _ _ _ _ h]
        exact h1
      · rw [h2]
        simp [blockHeads, h, Block.head]

theorem drawSRTFGanttChart_heads (e : Tick) (es : List Tick) :
    ∃ blocks, drawSRTFGanttChart (e :: es) = some blocks ∧
      blocks.map Block.head = (some e.processId, e.startTime) :: blockHeads e.processId es := by
  have h0 : chartEvent { currentProcess := none, startTime := 0, blocks := [] } e
      = { currentProcess := some e.processId, startTime := e.startTime, blocks := [] } := by
    unfold chartEvent
    simp
  obtain ⟨cur2, start2, blocks2, h1, h2⟩ := foldl_chartEvent_heads es e.processId e.startTime []
  obtain ⟨last, hlast⟩ : ∃ last, (e :: es).getLast? = some last :=
    ⟨(e :: es).getLast (by simp), List.getLast?_eq_getLast _ _⟩
  refine ⟨blocks2 ++ [{ processId := some cur2, startTime := start2
                        endTime := last.startTime + 1
                        duration := last.startTime - start2 + 1 }], ?_, ?_⟩
  · unfold drawSRTFGanttChart
    simp only [List.foldl_cons, h0, h1, hlast]
  · rw [List.map_append]
    simpa [Block.head] using h2

theorem blockHeads_chain (es : List Tick) (cur : String) (x : Int) :
    List.Chain (fun a b : Option String × Int => a.1 ≠ b.1) (some cur, x) (blockHeads cur es) := by
  induction es generalizing cur x with
  | nil => exact List.Chain.nil
  | cons e es ih =>
    unfold blockHeads
    split
    · exact ih cur x
    · rename_i h
      exact List.Chain.cons (by simpa using h) (ih e.processId e.startTime)

theorem tickRuns_cons_shape (e : Tick) (es : List Tick) :
    ∃ run runs, tickRuns (e :: es) = (e :: run) :: runs := by
  unfold tickRuns
  split
  · exact ⟨_, _, rfl⟩
  · exact ⟨_, _, rfl⟩
  · split
    · exact ⟨_, _, rfl⟩
    · exact ⟨_, _, rfl⟩

theorem tickRuns_heads (e : Tick) (es : List Tick)
    (hc : (e :: es).Chain' (fun a b => a.processId = b.processId → b.startTime = a.startTime + 1)) :
    (tickRuns (e :: es)).map runHead
      = (some e.processId, e.startTime) :: blockHeads e.processId es := by
  induction es generalizing e with
  | nil => simp [tickRuns, runHead, blockHeads]
  | cons f fs ih =>
    have hc2 := List.chain'_cons.1 hc
    have ihf := ih f hc2.2
    obtain ⟨run, runs, hshape⟩ := tickRuns_cons_shape f fs
    rw [hshape] at ihf
    simp only [List.map_cons, List.cons.injEq] at ihf
    rw [tickRuns, hshape]
    dsimp only
    by_cases hid : e.processId = f.processId
    · rw [if_pos ⟨hid.symm, hc2.1 hid⟩]
      simp only [List.map_cons, blockHeads, if_pos hid, ihf.2, hid]
      simp [runHead, hid]
    · rw [if_neg (fun h => hid h.1.symm)]
      simp only [List.map_cons, blockHeads, if_neg hid, ihf.2]
      simp [runHead]

theorem tickRuns_join (g : List Tick) : (tickRuns g).flatten = g := by
  induction g with
  | nil => rfl
  | cons e es ih =>
    unfold tickRuns
    split
    · rename_i h
      rw [h] at ih
      simp at ih
      simp [← ih]
    · rename_i runs h
      rw [h] at ih
      simpa using congrArg (e :: ·) ih
    · rename_i f run runs h
      rw [h] at ih
      split
      · simpa using congrArg (e :: ·) ih
      · simpa using congrArg (e :: ·) ih

/-! ## Claim C8 -/

theorem srtf_gantt_nonempty {processes : List Process} {s : SRTFState}
    (hv : ValidInput processes) (hne : processes ≠ [])
    (h : SRTFInv processes s) (hlen : processes.length ≤ s.completed.length) :
    s.ganttChart ≠ [] := by
  cases processes with
  | nil => exact absurd rfl hne
  | cons p ps =>
    have h1 := srtf_final_ticks h hlen p (List.mem_cons_self _ _)
    have h2 := (hv.2 p (List.mem_cons_self _ _)).2
    intro hg
    rw [hg] at h1
    simp at h1
    omega

/-- C2: evaluation of `calculateRR` on `P1(0,5), P2(1,3)` with quantum 2: the
result list holds five records, one per slice (P1, P2, P1, P2, P1), and the
first record, pushed for a slice that is not P1's last, carries the turnaround
`2` and the waiting time `-3`. -/
theorem C2_calculateRR_pushes_one_record_per_slice :
    (calculateRR 2 5 [⟨"P1", 0, 5, none⟩, ⟨"P2", 1, 3, none⟩]).map (List.map Result.processId)
      = some ["P1", "P2", "P1", "P2", "P1"] ∧
    (calculateRR 2 5 [⟨"P1", 0, 5, none⟩, ⟨"P2", 1, 3, none⟩]).map List.head?
      = some (some ⟨"P1", 0, 2, 2, -3, 5⟩) := by
  constructor <;> decide

/-- C4: evaluation of `calculateRR` on `P1(0,5), P2(1,3)` with quantum 2: the
records carry the waiting times `-3, 0, 1, 2, 1` and the turnaround times
`2, 3, 4, 3, 2`; the first waiting time is negative, and the last record of P1
(end 8, arrival 0, burst 5) has turnaround 2 and waiting time 1, not 8 and 3. -/
theorem C4_calculateRR_record_metrics :
    (calculateRR 2 5 [⟨"P1", 0, 5, none⟩, ⟨"P2", 1, 3, none⟩]).map
        (List.map Result.waitingTime) = some [-3, 0, 1, 2, 1] ∧
    (calculateRR 2 5 [⟨"P1", 0, 5, none⟩, ⟨"P2", 1, 3, none⟩]).map
        (List.map Result.turnaroundTime) = some [2, 3, 4, 3, 2] ∧
    (calculateRR 2 5 [⟨"P1", 0, 5, none⟩, ⟨"P2", 1, 3, none⟩]).map List.getLast?
      = some (some ⟨"P1", 7, 8, 2, 1, 1⟩) := by
  refine ⟨?_, ?_, ?_⟩ <;> decide

/-- C7: evaluation on `P1(0,1), P2(5,1)`: the tick stream of `calculateSRTF` is
P1 at 0, P2 at 5, its only run of P1 is the tick at 0, and the block
`drawSRTFGanttChart` builds for P1 is `0-5` with duration 5: it ends at the
start of the next block, not at the last tick of its run plus one. -/
theorem C7_chart_block_spans_idle_gap :
    (calculateSRTF 6 [⟨"P1", 0, 1, none⟩, ⟨"P2", 5, 1, none⟩]).map SRTFState.ganttChart
      = some [⟨"P1", 0⟩, ⟨"P2", 5⟩] ∧
    tickRuns [⟨"P1", 0⟩, ⟨"P2", 5⟩] = [[⟨"P1", 0⟩], [⟨"P2", 5⟩]] ∧
    drawSRTFGanttChart [⟨"P1", 0⟩, ⟨"P2", 5⟩]
      = some [⟨some "P1", 0, 5, 5⟩, ⟨some "P2", 5, 6, 1⟩] := by
  refine ⟨?_, ?_, ?_⟩ <;> decide

theorem jsOr_le (x y : Int) : jsOr x y ≤ 0 ↔ x < 0 ∨ (x = 0 ∧ y ≤ 0) := by
  unfold jsOr
  split <;> omega

theorem cmpPriority_le (a b : Process) :
    cmpPriority a b ≤ 0 ↔
      a.priority.getD 0 < b.priority.getD 0 ∨
        (a.priority.getD 0 = b.priority.getD 0 ∧ a.arrivalTime ≤ b.arrivalTime) := by
  unfold cmpPriority priorityNum
  rw [jsOr_le]
  omega

/-- C10: evaluation on `P1(0,5), P2(1,3)` with Round Robin, quantum 2:
`calculateMetrics` averages over the five slice records and yields the waiting
average `17/5` (shown as `3.40`) and the turnaround average `5`, whereas the
means over the two processes of `completion - arrival - burst` and `completion -
arrival` are `3` and `7`. -/
theorem C10_calculateMetrics_averages_over_slices :
    (calculateRR 2 5 [⟨"P1", 0, 5, none⟩, ⟨"P2", 1, 3, none⟩]).bind
        (fun rs => (calculateMetrics [⟨"P1", 0, 5, none⟩, ⟨"P2", 1, 3, none⟩] rs).map
          (fun m => (m.avgWaitingTime, m.avgTurnaroundTime)))
      = some (some (17 / 5), some 5) ∧
    toFixed2 (17 / 5) = 340 ∧
    (((8 - 0 - 5) + (7 - 1 - 3) : ℚ) / 2 = 3 ∧ (((8 - 0) + (7 - 1) : ℚ) / 2 = 7)) := by
  refine ⟨?_, ?_, ?_, ?_⟩
  · simp [calculateRR, rrLoop, rrBody, jsSort, sortInsert, cmpArrival, calculateMetrics,
      metricsStep]
    norm_num
  · unfold toFixed2
    rw [if_neg (by norm_num)]
    rw [Int.floor_eq_iff]
    norm_num
  · norm_num
  · norm_num

/-! ## Claim C11 -/

theorem rrLoop_returns (q : Int) (hq : 0 < q) :
    ∀ (k : Nat) (s : RRState), rrMeasure s ≤ k →
      ∃ s2, rrLoop q k s = some s2 ∧ s2.queue = [] := by
  intro k
  induction k with
  | zero =>
    intro s hk
    obtain ⟨queue, rs, t⟩ := s
    cases queue with
    | nil => exact ⟨_, rfl, rfl⟩
    | cons p rest => simp [rrMeasure] at hk
  | succ k ih =>
    intro s hk
    obtain ⟨queue, rs, t⟩ := s
    cases queue with
    | nil => exact ⟨_, rfl, rfl⟩
    | cons p rest =>
      have hm := rrMeasure_body q hq p rest rs t
      obtain ⟨s2, hs2, r⟩ := ih (rrBody q p rest rs t) (by omega)
      exact ⟨s2, hs2, r⟩

theorem cmpBurst_le (a b : Process) :
    cmpBurst a b ≤ 0 ↔
      a.burstTime < b.burstTime ∨ (a.burstTime = b.burstTime ∧ a.arrivalTime ≤ b.arrivalTime) := by
  unfold cmpBurst
  rw [jsOr_le]
  omega

/-- C13 as stated fails: `addProcess` accepts, without an alert, a descriptor
whose id is already in the list, whose `arrivalTime` is negative and whose
`burstTime` is not positive, and appends it. -/
theorem C13_addProcess_accepts_duplicate_and_nonpositive :
    addProcess [⟨"P1", 0, 1, none⟩] "P1" (some (-2)) (some 0) none
      = { processes := [⟨"P1", 0, 1, none⟩, ⟨"P1", -2, 0, none⟩], alert := none } := by
  decide

/-- C13, amended: `addProcess` raises its alert and leaves the process list
unchanged if and only if the id is empty or `parseInt` gives `NaN` for the
arrival or the burst field; otherwise it raises no alert and appends the
descriptor, with the parsed numbers, at the end of the list. -/
theorem C13_addProcess_rejects_empty_or_unparsed (processes : List Process)
    (processId : String) (arrivalTime burstTime priority : Option Int) :
    ((∃ message, addProcess processes processId arrivalTime burstTime priority
        = { processes := processes, alert := some message })
      ↔ (processId = "" ∨ arrivalTime = none ∨ burstTime = none)) ∧
    (∀ a b : Int, processId ≠ "" → arrivalTime = some a → burstTime = some b →
      addProcess processes processId arrivalTime burstTime priority
        = { processes := processes ++ [{ processId := processId, arrivalTime := a
                                         burstTime := b
                                         priority := priorityOrNull priority }]
            alert := none }) := by
  constructor
  · constructor
    · rintro ⟨message, h⟩
      cases arrivalTime with
      | none => exact Or.inr (Or.inl rfl)
      | some a =>
        cases burstTime with
        | none => exact Or.inr (Or.inr rfl)
        | some b =>
          by_cases hid : processId = ""
          · exact Or.inl hid
          · simp [addProcess, hid] at h
    · intro h
      refine ⟨"Please fill out all required fields correctly.", ?_⟩
      cases arrivalTime with
      | none => rfl
      | some a =>
        cases burstTime with
        | none => rfl
        | some b =>
          rcases h with h | h | h
          · simp [addProcess, h]
          · cases h
          · cases h
  · intro a b hid ha hb
    subst ha hb
    simp [addProcess, hid]

/-- Instance of the amended C13: adding `P2(3, 4)` to `[P1]`. -/
theorem C13_addProcess_rejects_empty_or_unparsed_witness :
    ("P2" : String) ≠ "" ∧
    addProcess [⟨"P1", 0, 1, none⟩] "P2" (some 3) (some 4) (some 0)
      = { processes := [⟨"P1", 0, 1, none⟩] ++ [{ processId := "P2", arrivalTime := 3
                                                  burstTime := 4
                                                  priority := priorityOrNull (some 0) }]
          alert := none } :=
  ⟨by decide,
    (C13_addProcess_rejects_empty_or_unparsed [⟨"P1", 0, 1, none⟩] "P2" (some 3) (some 4)
      (some 0)).2 3 4 (by decide) rfl rfl⟩

/-! ## Claims C14, C18 -/

theorem splice1_of_lt {α : Type} (arr : List α) (i : Nat) (h : i < arr.length) :
    splice1 arr (i : Int) = arr.take i ++ arr.drop (i + 1) := by
  unfold splice1
  have h1 : ¬ ((i : Int) < 0) := by omega
  have h2 : min (i : Int) (arr.length : Int) = i := by omega
  simp only [h1, if_false, h2, Int.toNat_ofNat]
  exact List.eraseIdx_eq_take_drop_succ arr i

theorem splice1_of_ge {α : Type} (arr : List α) (i : Nat) (h : arr.length ≤ i) :
    splice1 arr (i : Int) = arr := by
  unfold splice1
  have h1 : ¬ ((i : Int) < 0) := by omega
  have h2 : min (i : Int) (arr.length : Int) = arr.length := by omega
  simp only [h1, if_false, h2, Int.toNat_ofNat]
  exact List.eraseIdx_of_length_le (le_refl _)

/-- C18: for an index within bounds, `deleteProcess(index)` leaves the entries
before the index followed by the entries after it, in their order, so exactly
the entry at the index is gone and the length is one less; for an index equal
to or greater than the length the list is unchanged. -/
theorem C18_deleteProcess_removes_one (processes : List Process) (index : Nat) :
    (index < processes.length →
      deleteProcess processes (index : Int)
        = processes.take index ++ processes.drop (index + 1) ∧
      (deleteProcess processes (index : Int)).length + 1 = processes.length ∧
      (∀ j, j < index → (deleteProcess processes (index : Int))[j]? = processes[j]?) ∧
      (∀ j, index ≤ j → (deleteProcess processes (index : Int))[j]? = processes[j + 1]?)) ∧
    (processes.length ≤ index → deleteProcess processes (index : Int) = processes) := by
  constructor
  · intro h
    have he : deleteProcess processes (index : Int) = processes.eraseIdx index := by
      unfold deleteProcess
      rw [splice1_of_lt _ _ h, List.eraseIdx_eq_take_drop_succ]
    refine ⟨by unfold deleteProcess; exact splice1_of_lt _ _ h, ?_, ?_, ?_⟩
    · rw [he, List.length_eraseIdx, if_pos h]
      omega
    · intro j hj
      rw [he, List.getElem?_eraseIdx, if_pos hj]
    · intro j hj
      rw [he, List.getElem?_eraseIdx, if_neg (by omega)]
  · intro h
    unfold deleteProcess
    exact splice1_of_ge _ _ h

/-- Instance of C18: deleting index 1 of a three-entry list. -/
theorem C18_deleteProcess_removes_one_witness :
    (1 < ([⟨"A", 0, 4, none⟩, ⟨"B", 1, 3, none⟩, ⟨"C", 2, 1, none⟩] : List Process).length) ∧
    deleteProcess [⟨"A", 0, 4, none⟩, ⟨"B", 1, 3, none⟩, ⟨"C", 2, 1, none⟩] ((1 : Nat) : Int)
      = [⟨"A", 0, 4, none⟩, ⟨"C", 2, 1, none⟩] := by
  have h := ((C18_deleteProcess_removes_one
    [⟨"A", 0, 4, none⟩, ⟨"B", 1, 3, none⟩, ⟨"C", 2, 1, none⟩] 1).1 (by decide)).1
  exact ⟨by decide, h⟩

/-! ## The records of `calculateSRTF` and claim C16 -/

theorem srtfExecute_results (s : SRTFState) (ic : Nat × ProcessCopy) :
    (srtfExecute s ic).results
      = if ic.2.remainingTime - 1 = 0 then
          s.results ++ [{ processId := ic.2.processId
                          startTime := s.currentTime + 1 - ic.2.burstTime
                          endTime := s.currentTime + 1
                          turnaroundTime := s.currentTime + 1 - ic.2.arrivalTime
                          waitingTime := s.currentTime + 1 - ic.2.arrivalTime - ic.2.burstTime
                          burstTime := ic.2.burstTime }]
        else s.results := by
  unfold srtfExecute; dsimp only; split <;> rfl

theorem map_toProcess_set (l : List ProcessCopy) (i : Nat) (c : ProcessCopy) (x : Int)
    (hi : l[i]? = some c) :
    (l.set i { c with remainingTime := x }).map ProcessCopy.toProcess
      = l.map ProcessCopy.toProcess := by
  have hlt := getElem?_lt hi
  apply List.ext_getElem?
  intro k
  simp only [List.getElem?_map, List.getElem?_set]
  by_cases hk : i = k
  · subst hk
    simp [hlt, hi, ProcessCopy.toProcess]
  · simp [hk]

theorem tick_filter_append (g : List Tick) (id id2 : String) (t : Int) :
    (g ++ [Tick.mk id2 t]).filter (fun e => e.processId == id)
      = g.filter (fun e => e.processId == id) ++ (if id2 = id then [Tick.mk id2 t] else []) := by
  rw [List.filter_append]
  by_cases h : id2 = id
  · simp [List.filter_singleton, h]
  · simp [List.filter_singleton, h]

theorem resultsInv_init (processes : List Process) :
    ResultsInv processes (srtfInit processes) := by
  refine ⟨?_, ?_, ?_, ?_⟩
  · simp only [srtfInit, List.map_map]
    conv_rhs => rw [← List.map_id processes]
    apply List.map_congr_left
    intro p _
    rfl
  · rfl
  · intro r hr
    simp [srtfInit] at hr
  · intro r hr
    simp [srtfInit] at hr

theorem resultsInv_body (processes : List Process) (s : SRTFState)
    (h : ResultsInv processes s) : ResultsInv processes (srtfBody s) := by
  rcases srtfBody_cases s with ⟨-, hb⟩ | ⟨i, c, hmem, -, hb⟩
  · rw [hb]
    exact ⟨h.copies, h.ids, h.last_tick, h.fields⟩
  · rw [hb]
    obtain ⟨hi, harr, hnc⟩ := (mem_availableProcesses s i c).1 hmem
    have hcm : c ∈ s.processesCopy := List.mem_iff_getElem?.2 ⟨i, hi⟩
    have hold : ∀ r ∈ s.results, c.processId ≠ r.processId := by
      intro r hr heq
      apply hnc
      rw [← h.ids, heq]
      exact List.mem_map.2 ⟨r, hr, rfl⟩
    refine ⟨?_, ?_, ?_, ?_⟩
    · rw [srtfExecute_processesCopy]
      exact (map_toProcess_set _ _ _ _ hi).trans h.copies
    · rw [srtfExecute_results, srtfExecute_completed]
      dsimp only
      split
      · rw [setAdd_of_not_mem _ _ hnc, List.map_append, h.ids]
        rfl
      · exact h.ids
    · intro r hr
      rw [srtfExecute_results] at hr
      rw [srtfExecute_ganttChart, tick_filter_append]
      dsimp only at hr ⊢
      have hcase : r ∈ s.results ∨
          (r.processId = c.processId ∧ r.endTime = s.currentTime + 1) := by
        split at hr
        · rcases List.mem_append.1 hr with hr | hr
          · exact Or.inl hr
          · simp only [List.mem_singleton] at hr
            subst hr
            exact Or.inr ⟨rfl, rfl⟩
        · exact Or.inl hr
      rcases hcase with hr | ⟨hid, hend⟩
      · rw [if_neg (hold r hr), List.append_nil]
        exact h.last_tick r hr
      · rw [if_pos hid.symm, List.getLast?_concat, hid, hend]
        congr 2
        omega
    · intro r hr
      rw [srtfExecute_results] at hr
      dsimp only at hr
      split at hr
      · rcases List.mem_append.1 hr with hr | hr
        · exact h.fields r hr
        · simp only [List.mem_singleton] at hr
          subst hr
          refine ⟨c.toProcess, ?_, rfl, rfl, rfl, rfl, rfl⟩
          rw [← h.copies]
          exact List.mem_map.2 ⟨c, hcm, rfl⟩
      · exact h.fields r hr

theorem srtfLoop_results (processes : List Process) (n : Nat) (fuel : Nat) (s r : SRTFState)
    (h : srtfLoop n fuel s = some r) (hi : ResultsInv processes s) : ResultsInv processes r := by
  induction fuel generalizing s with
  | zero =>
    simp only [srtfLoop] at h
    split at h
    · cases h
    · cases h; exact hi
  | succ f ih =>
    simp only [srtfLoop] at h
    split at h
    · exact ih _ h (resultsInv_body processes s hi)
    · cases h; exact hi

theorem completed_perm {processes : List Process} {s : SRTFState}
    (h : SRTFInv processes s) (hlen : processes.length ≤ s.completed.length) :
    s.completed.Perm (processes.map Process.processId) := by
  have hsub : s.completed ⊆ processes.map Process.processId := h.completed_sub
  exact (h.completed_nodup.subperm hsub).perm_of_length_le (by simpa using hlen)

theorem filter_id_eq_singleton (rs : List Result) (hnd : (rs.map Result.processId).Nodup)
    (r : Result) (hr : r ∈ rs) :
    rs.filter (fun x => x.processId == r.processId) = [r] := by
  induction rs with
  | nil => simp at hr
  | cons x xs ih =>
    simp only [List.map_cons, List.nodup_cons, List.mem_map, not_exists, not_and] at hnd
    rcases List.mem_cons.1 hr with rfl | hr
    · have hnil : xs.filter (fun x => x.processId == r.processId) = [] := by
        rw [List.filter_eq_nil_iff]
        intro y hy
        simpa using hnd.1 y hy
      simp [List.filter_cons, hnil]
    · have hne : (x.processId == r.processId) = false := by
        simpa using fun h => hnd.1 r hr h.symm
      rw [List.filter_cons, hne]
      exact ih hnd.2 hr

theorem find?_of_nodup (processes : List Process)
    (hnd : (processes.map Process.processId).Nodup) (p : Process) (hp : p ∈ processes) :
    processes.find? (fun x => x.processId == p.processId) = some p := by
  induction processes with
  | nil => simp at hp
  | cons x xs ih =>
    simp only [List.map_cons, List.nodup_cons, List.mem_map, not_exists, not_and] at hnd
    rcases List.mem_cons.1 hp with rfl | hp
    · simp [List.find?_cons]
    · have hne : (x.processId == p.processId) = false := by
        simpa using fun h => hnd.1 p hp h.symm
      rw [List.find?_cons, hne]
      exact ih hnd.2 hp

/-- A record whose stored metrics equal what `calculateMetrics` recomputes. -/
theorem metricsStep_fixed (processes : List Process) (w t : Int) (done : List Result)
    (r : Result) (p : Process)
    (hf : processes.find? (fun x => x.processId == r.processId) = some p)
    (hw : r.waitingTime = r.startTime - p.arrivalTime)
    (ht : r.turnaroundTime = r.endTime - p.arrivalTime) :
    metricsStep processes (some (w, t, done)) r
      = some (w + r.waitingTime, t + r.turnaroundTime, done ++ [r]) := by
  unfold metricsStep
  rw [hf]
  obtain ⟨id, st, en, ta, wt, bt⟩ := r
  simp only at hw ht
  subst hw ht
  rfl

theorem foldl_metricsStep_fixed (processes : List Process) (rs : List Result)
    (hrs : ∀ r ∈ rs, ∃ p, processes.find? (fun x => x.processId == r.processId) = some p ∧
      r.waitingTime = r.startTime - p.arrivalTime ∧
      r.turnaroundTime = r.endTime - p.arrivalTime)
    (w t : Int) (done : List Result) :
    ∃ w2 t2, rs.foldl (metricsStep processes) (some (w, t, done)) = some (w2, t2, done ++ rs) := by
  induction rs generalizing w t done with
  | nil => exact ⟨w, t, by simp⟩
  | cons r rs ih =>
    obtain ⟨p, hf, hw, ht⟩ := hrs r (List.mem_cons_self _ _)
    obtain ⟨w2, t2, h2⟩ := ih (fun x hx => hrs x (List.mem_cons_of_mem _ hx))
      (w + r.waitingTime) (t + r.turnaroundTime) (done ++ [r])
    refine ⟨w2, t2, ?_⟩
    rw [List.foldl_cons, metricsStep_fixed processes w t done r p hf hw ht, h2]
    simp

theorem calculateMetrics_fixed (processes : List Process) (rs : List Result)
    (hrs : ∀ r ∈ rs, ∃ p, processes.find? (fun x => x.processId == r.processId) = some p ∧
      r.waitingTime = r.startTime - p.arrivalTime ∧
      r.turnaroundTime = r.endTime - p.arrivalTime) :
    ∃ m, calculateMetrics processes rs = some m ∧ m.results = rs := by
  obtain ⟨w2, t2, h2⟩ := foldl_metricsStep_fixed processes rs hrs 0 0 []
  unfold calculateMetrics
  rw [h2]
  exact ⟨_, rfl, by simp⟩

theorem recordsFrom_mem (l : List Process) (c : Int) (r : Result) (hr : r ∈ recordsFrom c l) :
    ∃ c2 p, p ∈ l ∧ r = recordAt c2 p := by
  induction l generalizing c with
  | nil => simp [recordsFrom] at hr
  | cons q qs ih =>
    simp only [recordsFrom, List.mem_cons] at hr
    rcases hr with rfl | hr
    · exact ⟨c, q, List.mem_cons_self _ _, rfl⟩
    · obtain ⟨c2, p, hp, h⟩ := ih _ hr
      exact ⟨c2, p, List.mem_cons_of_mem _ hp, h⟩

theorem runInOrder_fixed (cmp : Process → Process → Int) (processes : List Process)
    (hnd : (processes.map Process.processId).Nodup) :
    ∀ r ∈ runInOrder (jsSort cmp processes),
      ∃ p, processes.find? (fun x => x.processId == r.processId) = some p ∧
        r.waitingTime = r.startTime - p.arrivalTime ∧
        r.turnaroundTime = r.endTime - p.arrivalTime := by
  intro r hr
  rw [runInOrder_eq] at hr
  obtain ⟨c, p, hp, rfl⟩ := recordsFrom_mem _ _ _ hr
  have hp2 : p ∈ processes := (jsSort_perm cmp processes).subset hp
  refine ⟨p, find?_of_nodup processes hnd p hp2, ?_, rfl⟩
  simp only [recordAt]
  omega

theorem srtf_fixed (processes : List Process)
    (hnd : (processes.map Process.processId).Nodup) (s : SRTFState)
    (h : ResultsInv processes s) :
    ∀ r ∈ s.results,
      ∃ p, processes.find? (fun x => x.processId == r.processId) = some p ∧
        r.waitingTime = r.startTime - p.arrivalTime ∧
        r.turnaroundTime = r.endTime - p.arrivalTime := by
  intro r hr
  obtain ⟨p, hp, hid, hst, hta, hwt, -⟩ := h.fields r hr
  refine ⟨p, ?_, ?_, hta⟩
  · rw [← hid]
    exact find?_of_nodup processes hnd p hp
  · omega

theorem srtfLoop_stuck (n : Nat) (fuel : Nat) (s : SRTFState)
    (hn : s.completed.length < n)
    (hall : ∀ c ∈ s.processesCopy, c.processId ∈ s.completed) :
    srtfLoop n fuel s = none := by
  induction fuel generalizing s with
  | zero => simp [srtfLoop, hn]
  | succ f ih =>
    have hb : srtfBody s = { s with currentTime := s.currentTime + 1 } := by
      rcases srtfBody_cases s with ⟨-, hb⟩ | ⟨i, c, hmem, -, -⟩
      · exact hb
      · obtain ⟨hi, -, hnc⟩ := (mem_availableProcesses s i c).1 hmem
        exact absurd (hall c (List.mem_iff_getElem?.2 ⟨i, hi⟩)) hnc
    simp only [srtfLoop, if_pos hn]
    rw [hb]
    exact ih _ hn hall

/-- C15: evaluation on a list `addProcess` builds.  Adding `P1(0,1)` twice is
accepted both times; `runScheduler` with `'srtf'` then calls `calculateSRTF`,
whose loop does not return for any amount of fuel: after the first pass
`completed` holds the one id `P1`, both entries count as completed, and
`completed.size = 1 < 2 = processes.length` holds forever. -/
theorem C15_srtf_run_never_returns_on_duplicate_ids :
    addProcess [] "P1" (some 0) (some 1) none
      = { processes := [⟨"P1", 0, 1, none⟩], alert := none } ∧
    addProcess [⟨"P1", 0, 1, none⟩] "P1" (some 0) (some 1) none
      = { processes := [⟨"P1", 0, 1, none⟩, ⟨"P1", 0, 1, none⟩], alert := none } ∧
    runScheduler [⟨"P1", 0, 1, none⟩, ⟨"P1", 0, 1, none⟩] "srtf" none
      = Dispatch.invoke Algorithm.srtf ∧
    ∀ fuel, schedulingRun fuel [⟨"P1", 0, 1, none⟩, ⟨"P1", 0, 1, none⟩] "srtf" none = none := by
  refine ⟨by decide, by decide, by decide, fun fuel => ?_⟩
  have hrun : runScheduler [⟨"P1", 0, 1, none⟩, ⟨"P1", 0, 1, none⟩] "srtf" none
      = Dispatch.invoke Algorithm.srtf := by decide
  simp only [schedulingRun, hrun, resultRecords, Option.map_eq_none', calculateSRTF]
  cases fuel with
  | zero => decide
  | succ f =>
    have h0 : (srtfInit [⟨"P1", 0, 1, none⟩, ⟨"P1", 0, 1, none⟩]).completed.length
        < [(⟨"P1", 0, 1, none⟩ : Process), ⟨"P1", 0, 1, none⟩].length := by decide
    simp only [srtfLoop, if_pos h0]
    exact srtfLoop_stuck _ f _ (by decide) (by decide)

end Scheduler
